import Mathlib

/-!
Shallow embedding of the save-eat kitchen-inventory application
(src/models.py, src/app.py).  Quantities, costs and monetary totals are
modelled over `ℚ` (the Python code uses floats; the algorithms are
arithmetic-generic).  Dates are modelled as natural numbers (day index);
`expiry_date` is optional, and in SQL ordering a NULL expiry sorts before
any concrete date (SQLite `ASC` places NULLs first), which we encode with
a tag.  Database rows are modelled as lists of records; primary keys are
the `id` fields.
-/

namespace SaveEat

/-- `models.py` `Purchase`: one purchase batch of an ingredient. -/
structure Batch where
  id : Nat
  ingredient_id : Nat
  purchase_date : Nat
  expiry_date : Option Nat
  quantity : ℚ
  remaining_quantity : ℚ
  cost_per_unit : ℚ
  shopping_event_id : Option Nat
  status : String
  discarded_quantity : ℚ
  discarded_cost : ℚ
deriving DecidableEq

/-- `models.py` `Usage`: one consumption record. -/
structure UsageR where
  id : Nat
  ingredient_id : Nat
  usage_date : Nat
  actual_usage : ℚ
  cost : ℚ
deriving DecidableEq

/-- `models.py` `ShoppingEvent`. -/
structure EventR where
  id : Nat
  date : Nat
  total_cost : ℚ
  total_waste : ℚ
deriving DecidableEq

/-- Tag used to order optional expiry dates: a missing expiry sorts first. -/
def expTag : Option Nat → Nat
  | none => 0
  | some _ => 1

/-- Value component of the expiry sort key. -/
def expVal : Option Nat → Nat
  | none => 0
  | some x => x

/-- Lexicographic order on triples of naturals (strict on the first two
components, weak on the last). -/
def natTripleLe (x y : Nat × Nat × Nat) : Prop :=
  x.1 < y.1 ∨ (x.1 = y.1 ∧ (x.2.1 < y.2.1 ∨ (x.2.1 = y.2.1 ∧ x.2.2 ≤ y.2.2)))

instance : DecidableRel natTripleLe := fun x y => by
  unfold natTripleLe; infer_instance

/-- Sort key of a batch for FIFO order:
`ORDER BY purchase_date ASC, expiry_date ASC` (app.py line 96). -/
def batchKey (b : Batch) : Nat × Nat × Nat :=
  (b.purchase_date, expTag b.expiry_date, expVal b.expiry_date)

/-- FIFO ordering relation on batches. -/
def fifoLe (a b : Batch) : Prop := natTripleLe (batchKey a) (batchKey b)

instance : DecidableRel fifoLe := fun a b => by
  unfold fifoLe; infer_instance

theorem natTripleLe_total (x y : Nat × Nat × Nat) : natTripleLe x y ∨ natTripleLe y x := by
  unfold natTripleLe; omega

theorem natTripleLe_trans {x y z : Nat × Nat × Nat}
    (h1 : natTripleLe x y) (h2 : natTripleLe y z) : natTripleLe x z := by
  unfold natTripleLe at *; omega

instance : IsTotal Batch fifoLe := ⟨fun x y => natTripleLe_total (batchKey x) (batchKey y)⟩

instance : IsTrans Batch fifoLe := ⟨fun _ _ _ => natTripleLe_trans⟩

/-- Ordering used to pick "the most recent purchase"
(`order_by(Purchase.purchase_date.desc()).first()`). -/
def recentLe (a b : Batch) : Prop := b.purchase_date ≤ a.purchase_date

instance : DecidableRel recentLe := fun a b => by
  unfold recentLe; infer_instance

instance : IsTotal Batch recentLe := ⟨fun a b => Nat.le_total b.purchase_date a.purchase_date⟩

instance : IsTrans Batch recentLe :=
  ⟨fun _ _ _ h1 h2 => Nat.le_trans h2 h1⟩

/-- Selection predicate of the allocation query (app.py lines 93-96):
`Purchase.ingredient_id == ingredient_id, Purchase.remaining_quantity > 0`. -/
def fifoPred (iid : Nat) (b : Batch) : Bool :=
  b.ingredient_id == iid && decide (0 < b.remaining_quantity)

/-- The batches of ingredient `iid` with positive remaining quantity,
in FIFO order (app.py lines 93-96). -/
def fifoOrdered (batches : List Batch) (iid : Nat) : List Batch :=
  List.insertionSort fifoLe (batches.filter (fifoPred iid))

/-- The FIFO walk of app.py lines 98-112: given the quantity still needed
and the ordered batch list, return the total cost together with the list
of `(batch id, take)` pairs, where `take = min(remaining_quantity, qty_to_fill)`.
The loop breaks as soon as `qty_to_fill ≤ 0`. -/
def fifoWalk (need : ℚ) : List Batch → ℚ × List (Nat × ℚ)
  | [] => (0, [])
  | p :: ps =>
    if need ≤ 0 then (0, [])
    else
      let take := min p.remaining_quantity need
      let rest := fifoWalk (need - take) ps
      (take * p.cost_per_unit + rest.1, (p.id, take) :: rest.2)

/-- Total amount the entries of a `(batch id, quantity)` list attribute to
batch id `i`. -/
def takeAmt (entries : List (Nat × ℚ)) (i : Nat) : ℚ :=
  ((entries.filter (fun pr => pr.1 == i)).map (fun pr => pr.2)).sum

/-- Apply the in-place decrements `p.remaining_quantity -= take` of the
FIFO loop to the batch table (rows are identified by primary key). -/
def applyTakes (entries : List (Nat × ℚ)) (l : List Batch) : List Batch :=
  l.map (fun b => { b with remaining_quantity := b.remaining_quantity - takeAmt entries b.id })

/-- Apply the in-place increments `p.remaining_quantity += restore` of the
restoration loop to the batch table. -/
def applyGives (entries : List (Nat × ℚ)) (l : List Batch) : List Batch :=
  l.map (fun b => { b with remaining_quantity := b.remaining_quantity + takeAmt entries b.id })

/-- app.py lines 81-116, `calculate_fifo_cost`: if the ingredient does not
exist the function returns `0.0` without touching anything; otherwise it
walks the ordered positive-remaining batches of the ingredient, decrements
their `remaining_quantity`, and returns the accumulated cost.  The result
is the returned cost paired with the updated batch table. -/
def calculate_fifo_cost (ings : List Nat) (batches : List Batch) (iid : Nat) (need : ℚ) :
    ℚ × List Batch :=
  if iid ∈ ings then
    let w := fifoWalk need (fifoOrdered batches iid)
    (w.1, applyTakes w.2 batches)
  else (0, batches)

/-- Total quantity actually taken from the batches by one call of
`calculate_fifo_cost` (bookkeeping value used to state conservation). -/
def fifoTakeTotal (ings : List Nat) (batches : List Batch) (iid : Nat) (need : ℚ) : ℚ :=
  if iid ∈ ings then ((fifoWalk need (fifoOrdered batches iid)).2.map (fun pr => pr.2)).sum
  else 0

/-- Primary-key lookup in the batch table (`Purchase.query.get`). -/
def findBatch (i : Nat) (l : List Batch) : Option Batch :=
  l.find? (fun b => b.id == i)

/-- Primary-key lookup in the usage table (`Usage.query.get`). -/
def findUsage (i : Nat) (l : List UsageR) : Option UsageR :=
  l.find? (fun u => u.id == i)

/-- Primary-key lookup in the event table (`ShoppingEvent.query.get`). -/
def findEvent (i : Nat) (l : List EventR) : Option EventR :=
  l.find? (fun e => e.id == i)

/-- HTTP-level outcome of a route. -/
inductive Resp where
  | ok
  | notFound
  | invalidAmount
deriving DecidableEq

/-- Whole application state: the ingredient table (ids only), the three
row tables, the next fresh primary keys, and `allocLog`, a bookkeeping
trace of `(ingredient id, total quantity taken)` per allocation used to
state the conservation property. -/
structure St where
  ingredients : List Nat
  batches : List Batch
  usages : List UsageR
  events : List EventR
  nextB : Nat
  nextU : Nat
  allocLog : List (Nat × ℚ)
deriving DecidableEq

/-- The empty ledger. -/
def st0 : St := ⟨[], [], [], [], 0, 0, []⟩

/-- Core of one item of the `/purchase` route (app.py lines 252-276):
find-or-create the ingredient, then insert a `Purchase` row with
`remaining_quantity = quantity`, the given unit cost, `status='active'`
and zero discard fields. -/
def recordPurchaseBatch (st : St) (iid : Nat) (qty cpu : ℚ) (pdate : Nat)
    (edate : Option Nat) (eid : Option Nat) : St :=
  { st with
    ingredients := if iid ∈ st.ingredients then st.ingredients else st.ingredients ++ [iid],
    batches := st.batches ++ [⟨st.nextB, iid, pdate, edate, qty, qty, cpu, eid, "active", 0, 0⟩],
    nextB := st.nextB + 1 }

/-- Core of one item of the `/cook` route (app.py lines 392-414): compute
the FIFO cost (mutating the batch table) and insert a `Usage` row with the
requested quantity and that cost.  `allocLog` additionally records the
total quantity actually taken. -/
def cookAllocate (st : St) (iid : Nat) (qty : ℚ) (udate : Nat) : St :=
  let r := calculate_fifo_cost st.ingredients st.batches iid qty
  { st with
    batches := r.2,
    usages := st.usages ++ [⟨st.nextU, iid, udate, qty, r.1⟩],
    nextU := st.nextU + 1,
    allocLog := st.allocLog ++ [(iid, fifoTakeTotal st.ingredients st.batches iid qty)] }

/-- app.py lines 289-318, `/api/discard/<purchase_id>`: 404 when the batch
does not exist; the amount defaults to the full remaining quantity; a 400
error when `amount > remaining_quantity`; otherwise decrement remaining,
increment the discard fields, set status `'discarded'` when remaining hits
exactly 0, and add the waste cost to the owning event's `total_waste`. -/
def discard_item (st : St) (pid : Nat) (amt : Option ℚ) : Resp × St :=
  match findBatch pid st.batches with
  | none => (Resp.notFound, st)
  | some p =>
    let amount := amt.getD p.remaining_quantity
    if p.remaining_quantity < amount then (Resp.invalidAmount, st)
    else
      let waste_cost := amount * p.cost_per_unit
      let p' : Batch :=
        { p with
          remaining_quantity := p.remaining_quantity - amount,
          discarded_quantity := p.discarded_quantity + amount,
          discarded_cost := p.discarded_cost + waste_cost,
          status := if p.remaining_quantity - amount = 0 then "discarded" else p.status }
      let batches' := st.batches.map (fun b => if b.id == pid then p' else b)
      let events' :=
        match p.shopping_event_id with
        | some eid =>
            st.events.map (fun e =>
              if e.id == eid then { e with total_waste := e.total_waste + waste_cost } else e)
        | none => st.events
      (Resp.ok, { st with batches := batches', events := events' })

/-- app.py lines 494-519, `/api/update_purchase_status`: when the new
status is `'discarded'` and the batch is not already discarded, discard
the entire remaining quantity and add its cost to the batch's
`discarded_cost` and the owning event's `total_waste`; in every other
case nothing changes. -/
def update_purchase_status (st : St) (pid : Nat) (new_status : String) : Resp × St :=
  match findBatch pid st.batches with
  | none => (Resp.notFound, st)
  | some p =>
    if new_status = "discarded" ∧ p.status ≠ "discarded" then
      let waste_cost := p.remaining_quantity * p.cost_per_unit
      let p' : Batch :=
        { p with
          discarded_quantity := p.discarded_quantity + p.remaining_quantity,
          remaining_quantity := 0,
          discarded_cost := p.discarded_cost + waste_cost,
          status := "discarded" }
      let batches' := st.batches.map (fun b => if b.id == pid then p' else b)
      let events' :=
        match p.shopping_event_id with
        | some eid =>
            st.events.map (fun e =>
              if e.id == eid then { e with total_waste := e.total_waste + waste_cost } else e)
        | none => st.events
      (Resp.ok, { st with batches := batches', events := events' })
    else (Resp.ok, st)

/-- The restoration loop of app.py lines 556-564: walk the candidate
batches, restoring `min(quantity - remaining_quantity, remaining_to_restore)`
into each; return the amount still left to restore together with the
`(batch id, restored)` pairs. -/
def restoreWalk (need : ℚ) : List Batch → ℚ × List (Nat × ℚ)
  | [] => (need, [])
  | p :: ps =>
    if need ≤ 0 then (need, [])
    else
      let space := p.quantity - p.remaining_quantity
      let give := min space need
      let rest := restoreWalk (need - give) ps
      (rest.1, (p.id, give) :: rest.2)

/-- Selection predicate of the restoration query (app.py lines 549-552):
same ingredient and `remaining_quantity < quantity` (not pristine). -/
def restorePred (iid : Nat) (b : Batch) : Bool :=
  b.ingredient_id == iid && decide (b.remaining_quantity < b.quantity)

/-- Predicate for all batches of an ingredient. -/
def ingPred (iid : Nat) (b : Batch) : Bool := b.ingredient_id == iid

/-- app.py lines 540-575, `/api/delete_usage/<usage_id>`: 404 when the
usage does not exist (`get_or_404`); otherwise fill the ingredient's
not-pristine batches (`remaining_quantity < quantity`) in FIFO order,
add any remainder to the most recently purchased batch of the ingredient
when one exists, and delete the usage row. -/
def api_delete_usage (st : St) (uid : Nat) : Resp × St :=
  match findUsage uid st.usages with
  | none => (Resp.notFound, st)
  | some u =>
    let cands := List.insertionSort fifoLe
      (st.batches.filter (restorePred u.ingredient_id))
    let w := restoreWalk u.actual_usage cands
    let batches1 := applyGives w.2 st.batches
    let batches2 :=
      if 0 < w.1 then
        match (List.insertionSort recentLe
            (batches1.filter (ingPred u.ingredient_id))).head? with
        | some lastp =>
            batches1.map (fun b =>
              if b.id == lastp.id then
                { b with remaining_quantity := b.remaining_quantity + w.1 }
              else b)
        | none => batches1
      else batches1
    (Resp.ok,
      { st with
        batches := batches2,
        usages := st.usages.filter (fun v => !(v.id == uid)) })

/-- The boundary operations of the specification, §6. -/
inductive Op where
  | purchase : Nat → ℚ → ℚ → Nat → Option Nat → Option Nat → Op
  | allocate : Nat → ℚ → Nat → Op
  | discard : Nat → Option ℚ → Op
  | setFullyDiscarded : Nat → Op
  | reverseUsage : Nat → Op
deriving DecidableEq

/-- One boundary operation applied to the state (route responses are
discarded). -/
def applyOp (st : St) : Op → St
  | Op.purchase i q c d e v => recordPurchaseBatch st i q c d e v
  | Op.allocate i q d => cookAllocate st i q d
  | Op.discard p a => (discard_item st p a).2
  | Op.setFullyDiscarded p => (update_purchase_status st p "discarded").2
  | Op.reverseUsage u => (api_delete_usage st u).2

/-- State reached from the empty ledger by a sequence of operations. -/
def run (ops : List Op) : St := ops.foldl applyOp st0

/-- Dashboard monthly consumption total (app.py lines 179-182):
sum of `Usage.cost` over `lo ≤ usage_date < hi`. -/
def monthlyUsageTotal (usages : List UsageR) (lo hi : Nat) : ℚ :=
  ((usages.filter (fun u => decide (lo ≤ u.usage_date) && decide (u.usage_date < hi))).map
    (fun u => u.cost)).sum

/-- Dashboard monthly waste total (app.py lines 173-176):
sum of `ShoppingEvent.total_waste` over `lo ≤ date < hi`. -/
def monthlyWasteTotal (events : List EventR) (lo hi : Nat) : ℚ :=
  ((events.filter (fun e => decide (lo ≤ e.date) && decide (e.date < hi))).map
    (fun e => e.total_waste)).sum

/-- `monthly_stats` per-day usage figure `data[day]['usage']`
(app.py lines 476-481): sum of `Usage.cost` over usages dated that day. -/
def dailyUsageStat (usages : List UsageR) (d : Nat) : ℚ :=
  ((usages.filter (fun u => u.usage_date == d)).map (fun u => u.cost)).sum

/-- `monthly_stats` per-day waste figure `data[day]['waste']`
(app.py lines 484-490): sum of `ShoppingEvent.total_waste` over the
events dated that day — but only events with `total_waste > 0` are
entered into the table. -/
def dailyWasteStat (events : List EventR) (d : Nat) : ℚ :=
  ((events.filter (fun e => e.date == d && decide (0 < e.total_waste))).map
    (fun e => e.total_waste)).sum

/-! ### Bookkeeping lemmas: ids, lookups, sums -/

/-- Sum of a field over the batches of one ingredient. -/
def ingSum (g : Batch → ℚ) (iid : Nat) (l : List Batch) : ℚ :=
  ((l.filter (fun b => b.ingredient_id == iid)).map g).sum

/-- Ids of a batch table. -/
def ids (l : List Batch) : List Nat := l.map (fun b => b.id)

theorem mem_id_unique {l : List Batch} (hnd : (ids l).Nodup)
    {a b : Batch} (ha : a ∈ l) (hb : b ∈ l) (h : a.id = b.id) : a = b :=
  List.inj_on_of_nodup_map hnd ha hb h

theorem ids_cons (a : Batch) (l : List Batch) : ids (a :: l) = a.id :: ids l := rfl

theorem nodup_ids_cons {a : Batch} {l : List Batch} (hnd : (ids (a :: l)).Nodup) :
    (ids l).Nodup := by
  rw [ids_cons] at hnd
  exact (List.nodup_cons.1 hnd).2

theorem head_id_not_mem {a : Batch} {l : List Batch} (hnd : (ids (a :: l)).Nodup) :
    a.id ∉ ids l := by
  rw [ids_cons] at hnd
  exact (List.nodup_cons.1 hnd).1

theorem id_ne_head_of_nodup {a : Batch} {l : List Batch} (hnd : (ids (a :: l)).Nodup)
    {b : Batch} (hb : b ∈ l) : b.id ≠ a.id := by
  intro h
  rw [ids_cons] at hnd
  have ha : a.id ∈ ids l := by
    rw [← h]
    exact List.mem_map_of_mem (fun b => b.id) hb
  exact (List.nodup_cons.1 hnd).1 ha

theorem findBatch_eq_some {i : Nat} {l : List Batch} {b : Batch}
    (h : findBatch i l = some b) : b ∈ l ∧ b.id = i := by
  refine ⟨List.mem_of_find?_eq_some h, ?_⟩
  have := List.find?_some h
  simpa using this

theorem findBatch_of_mem : ∀ {l : List Batch}, (ids l).Nodup →
    ∀ {b : Batch} {i : Nat}, b ∈ l → b.id = i → findBatch i l = some b := by
  intro l
  induction l with
  | nil => intro _ b i hb; cases hb
  | cons a l ih =>
    intro hnd b i hb hi
    rcases List.mem_cons.1 hb with rfl | hb'
    · simp [findBatch, List.find?_cons, hi]
    · have hne : (a.id == i) = false := by
        have : b.id ≠ a.id := id_ne_head_of_nodup hnd hb'
        simp only [beq_eq_false_iff_ne, ne_eq]
        intro h; rw [← hi] at h; exact this h.symm
      have := ih (nodup_ids_cons hnd) hb' hi
      simpa [findBatch, List.find?_cons, hne] using this

theorem findBatch_map_pres {f : Batch → Batch} (hf : ∀ b, (f b).id = b.id)
    (i : Nat) : ∀ (l : List Batch), findBatch i (l.map f) = (findBatch i l).map f := by
  intro l
  induction l with
  | nil => rfl
  | cons a l ih =>
    by_cases h : a.id = i
    · have h1 : ((f a).id == i) = true := by simp [hf a, h]
      have h2 : (a.id == i) = true := by simp [h]
      simp [findBatch, List.find?_cons, h1, h2] at *
    · have h1 : ((f a).id == i) = false := by simp [hf a, h]
      have h2 : (a.id == i) = false := by simp [h]
      unfold findBatch at *
      rw [List.map_cons, List.find?_cons, List.find?_cons, h1, h2]
      exact ih

theorem ids_map_pres {f : Batch → Batch} (hf : ∀ b, (f b).id = b.id)
    (l : List Batch) : ids (l.map f) = ids l := by
  induction l with
  | nil => rfl
  | cons a l ih =>
    rw [List.map_cons, ids_cons, ids_cons, hf a, ih]

theorem takeAmt_nil (i : Nat) : takeAmt [] i = 0 := rfl

theorem takeAmt_cons (pr : Nat × ℚ) (es : List (Nat × ℚ)) (i : Nat) :
    takeAmt (pr :: es) i = (if pr.1 = i then pr.2 else 0) + takeAmt es i := by
  by_cases h : pr.1 = i <;> simp [takeAmt, List.filter_cons, h]

theorem takeAmt_eq_zero_of_not_mem {es : List (Nat × ℚ)} {i : Nat}
    (h : ∀ pr ∈ es, pr.1 ≠ i) : takeAmt es i = 0 := by
  induction es with
  | nil => rfl
  | cons pr es ih =>
    rw [takeAmt_cons, if_neg (h pr (List.mem_cons_self pr es)),
      ih (fun q hq => h q (List.mem_cons_of_mem pr hq)), zero_add]

theorem takeAmt_single : ∀ {es : List (Nat × ℚ)}, (es.map (fun pr => pr.1)).Nodup →
    ∀ {i : Nat} {t : ℚ}, (i, t) ∈ es → takeAmt es i = t := by
  intro es
  induction es with
  | nil => intro _ i t h; cases h
  | cons pr es ih =>
    intro hnd i t h
    rcases List.mem_cons.1 h with rfl | h'
    · rw [takeAmt_cons, if_pos rfl, takeAmt_eq_zero_of_not_mem, add_zero]
      intro q hq hqi
      have : q.1 ∈ es.map (fun pr => pr.1) := List.mem_map_of_mem _ hq
      rw [hqi] at this
      exact (List.nodup_cons.1 (by simpa using hnd)).1 this
    · have hmem : i ∈ es.map (fun pr => pr.1) := by
        have : (i, t).1 ∈ es.map (fun pr => pr.1) := List.mem_map_of_mem _ h'
        simpa using this
      have hne : pr.1 ≠ i := by
        intro hpi
        rw [← hpi] at hmem
        exact (List.nodup_cons.1 (by simpa using hnd)).1 hmem
      rw [takeAmt_cons, if_neg hne, ih (by simpa using (List.nodup_cons.1 hnd).2) h',
        zero_add]

/-- Summing `if b.id = n then c else 0` over a table whose ids are unique:
the result is `c` when some member has id `n`. -/
theorem sum_ite_id_of_mem : ∀ {l : List Batch}, (ids l).Nodup →
    ∀ {p : Batch}, p ∈ l → ∀ (c : ℚ),
    ((l.map (fun b => if b.id = p.id then c else 0)).sum) = c := by
  intro l
  induction l with
  | nil => intro _ p hp; cases hp
  | cons a l ih =>
    intro hnd p hp c
    rcases List.mem_cons.1 hp with rfl | hp'
    · have hz : ∀ b ∈ l, (if b.id = p.id then c else 0) = 0 := fun b hb =>
        if_neg (id_ne_head_of_nodup hnd hb)
      rw [List.map_cons, List.sum_cons, if_pos rfl, List.map_congr_left hz]
      simp
    · have hne : a.id ≠ p.id := fun hap =>
        (id_ne_head_of_nodup hnd hp') hap.symm
      rw [List.map_cons, List.sum_cons, if_neg hne, zero_add,
        ih (nodup_ids_cons hnd) hp' c]

theorem sum_ite_id_of_none {l : List Batch} {n : Nat}
    (h : ∀ b ∈ l, b.id ≠ n) (c : ℚ) :
    ((l.map (fun b => if b.id = n then c else 0)).sum) = 0 := by
  induction l with
  | nil => rfl
  | cons a l ih =>
    rw [List.map_cons, List.sum_cons, if_neg (h a (List.mem_cons_self a l)),
      ih (fun b hb => h b (List.mem_cons_of_mem a hb)), zero_add]

theorem sum_map_sub {l : List Batch} (f g : Batch → ℚ) :
    (l.map (fun b => f b - g b)).sum = (l.map f).sum - (l.map g).sum := by
  induction l with
  | nil => simp
  | cons a l ih => simp [ih]; ring

/-! ### Characterisation of the FIFO walk -/

/-- Total remaining quantity in the first `k` batches of a list. -/
def prefRem (l : List Batch) (k : Nat) : ℚ :=
  ((l.take k).map (fun b => b.remaining_quantity)).sum

/-- Closed form of the quantity the FIFO walk takes from the batch at
position `k`: the batch's remaining quantity capped by what is still
needed after the earlier batches. -/
def takeClosed (need : ℚ) (l : List Batch) (k : Fin l.length) : ℚ :=
  min (l.get k).remaining_quantity (max 0 (need - prefRem l k.1))

theorem prefRem_nonneg {l : List Batch} (hpos : ∀ b ∈ l, 0 ≤ b.remaining_quantity)
    (k : Nat) : 0 ≤ prefRem l k := by
  refine List.sum_nonneg ?_
  intro x hx
  rcases List.mem_map.1 hx with ⟨b, hb, rfl⟩
  exact hpos b (List.mem_of_mem_take hb)

theorem prefRem_zero (l : List Batch) : prefRem l 0 = 0 := rfl

theorem prefRem_cons_succ (p : Batch) (ps : List Batch) (k : Nat) :
    prefRem (p :: ps) (k + 1) = p.remaining_quantity + prefRem ps k := by
  simp [prefRem, List.take_succ_cons]

/-- Shifting the closed form along the walk: after the head batch
contributes `min remaining need`, the closed form at position `k + 1`
equals the closed form over the tail at position `k`. -/
theorem takeClosed_shift {p : Batch} {ps : List Batch}
    (hps : ∀ b ∈ ps, 0 ≤ b.remaining_quantity)
    (k : Fin ps.length) (need : ℚ) (m : (k : Nat) + 1 < (p :: ps).length) :
    takeClosed need (p :: ps) ⟨k + 1, m⟩
      = takeClosed (need - min p.remaining_quantity need) ps k := by
  unfold takeClosed
  rw [List.get_cons_succ, prefRem_cons_succ]
  rcases le_total p.remaining_quantity need with h | h
  · rw [min_eq_left h]
    ring_nf
  · rw [min_eq_right h, sub_self]
    have hpre : 0 ≤ prefRem ps k.1 := prefRem_nonneg hps k.1
    have e1 : max 0 (need - (p.remaining_quantity + prefRem ps k.1)) = 0 :=
      max_eq_left (by linarith)
    have e2 : max 0 (0 - prefRem ps k.1) = 0 := max_eq_left (by linarith)
    rw [e1, e2]

/-- Every id mentioned by the FIFO walk is an id of the walked list. -/
theorem fifoWalk_ids_sub : ∀ (l : List Batch) (need : ℚ),
    ∀ pr ∈ (fifoWalk need l).2, pr.1 ∈ ids l := by
  intro l
  induction l with
  | nil => intro need pr h; cases h
  | cons p ps ih =>
    intro need pr h
    rw [fifoWalk] at h
    by_cases hn : need ≤ 0
    · rw [if_pos hn] at h; cases h
    · rw [if_neg hn] at h
      rcases List.mem_cons.1 h with rfl | h'
      · exact List.mem_cons_self _ _
      · exact List.mem_cons_of_mem _ (ih _ pr h')

/-- The ids mentioned by the FIFO walk are distinct when the list's ids are. -/
theorem fifoWalk_ids_nodup : ∀ (l : List Batch), (ids l).Nodup → ∀ (need : ℚ),
    ((fifoWalk need l).2.map (fun pr => pr.1)).Nodup := by
  intro l
  induction l with
  | nil => intro _ need; simp [fifoWalk]
  | cons p ps ih =>
    intro hnd need
    rw [fifoWalk]
    by_cases hn : need ≤ 0
    · rw [if_pos hn]; simp
    · rw [if_neg hn]
      refine List.nodup_cons.2 ⟨?_, ih (nodup_ids_cons hnd) _⟩
      intro hmem
      rcases List.mem_map.1 hmem with ⟨pr, hpr, hpr1⟩
      have : pr.1 ∈ ids ps := fifoWalk_ids_sub ps _ pr hpr
      rw [hpr1] at this
      exact head_id_not_mem hnd this

/-- The quantity the walk attributes to the batch at position `k` is the
closed form `takeClosed`. -/
theorem fifoWalk_takeAmt : ∀ (l : List Batch), (ids l).Nodup →
    (∀ b ∈ l, 0 ≤ b.remaining_quantity) → ∀ (need : ℚ) (k : Fin l.length),
    takeAmt (fifoWalk need l).2 ((l.get k).id) = takeClosed need l k := by
  intro l
  induction l with
  | nil => intro _ _ need k; exact absurd k.2 (by simp)
  | cons p ps ih =>
    intro hnd hpos need k
    rw [fifoWalk]
    by_cases hn : need ≤ 0
    · rw [if_pos hn]
      rw [takeAmt_nil]
      unfold takeClosed
      have hpre : 0 ≤ prefRem (p :: ps) k.1 := prefRem_nonneg hpos k.1
      have e1 : max 0 (need - prefRem (p :: ps) k.1) = 0 := max_eq_left (by linarith)
      rw [e1]
      exact (min_eq_right (hpos _ (List.get_mem _ _ k.2))).symm
    · rw [if_neg hn]
      push_neg at hn
      rcases Fin.eq_zero_or_eq_succ (Fin.cast (by simp) k : Fin (ps.length + 1))
        with h0 | ⟨j, hj⟩
      · have hk0 : (k : Nat) = 0 := by
          have := congrArg Fin.val h0
          simpa using this
        have hget : (p :: ps).get k = p := by
          cases k with
          | mk v hv => subst hk0; rfl
        rw [hget]
        rw [takeAmt_cons, if_pos rfl]
        rw [takeAmt_eq_zero_of_not_mem, add_zero]
        · unfold takeClosed
          rw [hget, hk0, prefRem_zero, sub_zero, max_eq_right (le_of_lt hn)]
        · intro q hq hqi
          have hmem : q.1 ∈ ids ps := fifoWalk_ids_sub ps _ q hq
          rw [hqi] at hmem
          exact head_id_not_mem hnd hmem
      · have hkval : (k : Nat) = (j : Nat) + 1 := by
          have := congrArg Fin.val hj
          simpa using this
        have hget : (p :: ps).get k = ps.get j := by
          cases k with
          | mk v hv =>
            subst hkval
            exact List.get_cons_succ
        rw [hget, takeAmt_cons]
        have hne : p.id ≠ (ps.get j).id := by
          intro h
          have : (ps.get j).id ≠ p.id :=
            id_ne_head_of_nodup hnd (List.get_mem ps _ j.2)
          exact this h.symm
        rw [if_neg hne, zero_add]
        have hrec := ih (nodup_ids_cons hnd)
          (fun b hb => hpos b (List.mem_cons_of_mem p hb))
          (need - min p.remaining_quantity need) j
        rw [hrec]
        have hshift := takeClosed_shift (p := p)
          (fun b hb => hpos b (List.mem_cons_of_mem p hb)) j need
          (by simpa using Nat.succ_lt_succ j.2)
        cases k with
        | mk v hv =>
          subst hkval
          exact hshift.symm

/-- The cost the walk returns is the sum over positions of
`takeClosed × cost_per_unit`. -/
theorem fifoWalk_cost : ∀ (l : List Batch),
    (∀ b ∈ l, 0 ≤ b.remaining_quantity) → ∀ (need : ℚ),
    (fifoWalk need l).1
      = ∑ k : Fin l.length, takeClosed need l k * (l.get k).cost_per_unit := by
  intro l
  induction l with
  | nil => intro _ need; simp [fifoWalk]
  | cons p ps ih =>
    intro hpos need
    rw [fifoWalk]
    by_cases hn : need ≤ 0
    · rw [if_pos hn]
      have hz : ∀ k : Fin (p :: ps).length, takeClosed need (p :: ps) k = 0 := by
        intro k
        unfold takeClosed
        have hpre : 0 ≤ prefRem (p :: ps) k.1 := prefRem_nonneg hpos k.1
        have e1 : max 0 (need - prefRem (p :: ps) k.1) = 0 := max_eq_left (by linarith)
        rw [e1]
        exact min_eq_right (hpos _ (List.get_mem _ _ k.2))
      show (0 : ℚ) = _
      symm
      refine Finset.sum_eq_zero ?_
      intro k _
      rw [hz k, zero_mul]
    · rw [if_neg hn]
      push_neg at hn
      show min p.remaining_quantity need * p.cost_per_unit
          + (fifoWalk (need - min p.remaining_quantity need) ps).1
          = ∑ k : Fin (ps.length + 1),
              takeClosed need (p :: ps) k * ((p :: ps).get k).cost_per_unit
      rw [ih (fun b hb => hpos b (List.mem_cons_of_mem p hb))
        (need - min p.remaining_quantity need)]
      rw [Fin.sum_univ_succ]
      congr 1
      · have h0 : takeClosed need (p :: ps) (0 : Fin (ps.length + 1))
            = min p.remaining_quantity need := by
          simp [takeClosed, prefRem, max_eq_right (le_of_lt hn)]
        rw [h0]
        rfl
      · refine (Finset.sum_congr rfl ?_).symm
        intro j _
        have hj1 : (j : Nat) + 1 < (p :: ps).length := by
          simpa using Nat.succ_lt_succ j.2
        have hs := takeClosed_shift (p := p)
          (fun b hb => hpos b (List.mem_cons_of_mem p hb)) j need hj1
        have hsu : (Fin.succ j : Fin (ps.length + 1)) = ⟨(j : Nat) + 1, hj1⟩ := rfl
        rw [hsu, hs, List.get_cons_succ]

/-! ### Characterisation of the restoration walk -/

/-- The amount left over plus the amounts restored equals the amount to
restore: the walk never invents or drops quantity. -/
theorem restoreWalk_total : ∀ (l : List Batch) (need : ℚ),
    (restoreWalk need l).1 + ((restoreWalk need l).2.map (fun pr => pr.2)).sum = need := by
  intro l
  induction l with
  | nil => intro need; simp [restoreWalk]
  | cons p ps ih =>
    intro need
    rw [restoreWalk]
    by_cases hn : need ≤ 0
    · rw [if_pos hn]; simp
    · rw [if_neg hn]
      have := ih (need - min (p.quantity - p.remaining_quantity) need)
      simp only [List.map_cons, List.sum_cons]
      linarith

theorem restoreWalk_leftover_nonneg : ∀ (l : List Batch) (need : ℚ), 0 ≤ need →
    0 ≤ (restoreWalk need l).1 := by
  intro l
  induction l with
  | nil => intro need h; simpa [restoreWalk] using h
  | cons p ps ih =>
    intro need h
    rw [restoreWalk]
    by_cases hn : need ≤ 0
    · rw [if_pos hn]; exact h
    · rw [if_neg hn]
      push_neg at hn
      refine ih _ ?_
      have : min (p.quantity - p.remaining_quantity) need ≤ need := min_le_right _ _
      linarith

theorem restoreWalk_ids_sub : ∀ (l : List Batch) (need : ℚ),
    ∀ pr ∈ (restoreWalk need l).2, pr.1 ∈ ids l := by
  intro l
  induction l with
  | nil => intro need pr h; cases h
  | cons p ps ih =>
    intro need pr h
    rw [restoreWalk] at h
    by_cases hn : need ≤ 0
    · rw [if_pos hn] at h; cases h
    · rw [if_neg hn] at h
      rcases List.mem_cons.1 h with rfl | h'
      · exact List.mem_cons_self _ _
      · exact List.mem_cons_of_mem _ (ih _ pr h')

/-- Amounts restored by the walk are nonnegative (candidate batches all
have free space, i.e. `remaining_quantity < quantity`). -/
theorem restoreWalk_gives_nonneg : ∀ (l : List Batch),
    (∀ b ∈ l, b.remaining_quantity < b.quantity) → ∀ (need : ℚ),
    ∀ pr ∈ (restoreWalk need l).2, 0 ≤ pr.2 := by
  intro l
  induction l with
  | nil => intro _ need pr h; cases h
  | cons p ps ih =>
    intro hsp need pr h
    rw [restoreWalk] at h
    by_cases hn : need ≤ 0
    · rw [if_pos hn] at h; cases h
    · rw [if_neg hn] at h
      push_neg at hn
      rcases List.mem_cons.1 h with rfl | h'
      · have hs : 0 < p.quantity - p.remaining_quantity := by
          have := hsp p (List.mem_cons_self p ps)
          linarith
        exact le_of_lt (lt_min hs hn)
      · exact ih (fun b hb => hsp b (List.mem_cons_of_mem p hb)) _ pr h'

/-! ### Sums over filtered tables under pointwise updates -/

theorem filter_map_pres {F : Batch → Batch} {P : Batch → Bool}
    (h : ∀ b, P (F b) = P b) : ∀ (l : List Batch),
    (l.map F).filter P = (l.filter P).map F := by
  intro l
  induction l with
  | nil => rfl
  | cons a l ih =>
    rw [List.map_cons, List.filter_cons, List.filter_cons, h a]
    by_cases ha : P a = true
    · simp [ha, ih]
    · simp [ha, ih]

theorem takeAmt_cons_flip (pr : Nat × ℚ) (es : List (Nat × ℚ)) (i : Nat) :
    takeAmt (pr :: es) i = (if i = pr.1 then pr.2 else 0) + takeAmt es i := by
  rw [takeAmt_cons]
  congr 1
  by_cases h : pr.1 = i
  · rw [if_pos h, if_pos h.symm]
  · rw [if_neg h, if_neg (fun hh => h hh.symm)]

/-- Each entry of an update list with an owner inside `l.filter P`
contributes its full amount exactly once: the total of the per-batch
amounts over the filtered table equals the total of the entries. -/
theorem sum_takeAmt_filter : ∀ (es : List (Nat × ℚ)) {l : List Batch} {P : Batch → Bool},
    (ids l).Nodup →
    (∀ pr ∈ es, ∃ b ∈ l, b.id = pr.1 ∧ P b = true) →
    (((l.filter P).map (fun b => takeAmt es b.id)).sum) = (es.map (fun pr => pr.2)).sum := by
  intro es
  induction es with
  | nil =>
    intro l P _ _
    have hz : ∀ b ∈ l.filter P, takeAmt [] b.id = (0 : ℚ) := fun b _ => rfl
    rw [List.map_congr_left hz]
    simp
  | cons pr es ih =>
    intro l P hnd hown
    have hsplit : ((l.filter P).map (fun b => takeAmt (pr :: es) b.id)).sum
        = ((l.filter P).map (fun b => if b.id = pr.1 then pr.2 else 0)).sum
          + ((l.filter P).map (fun b => takeAmt es b.id)).sum := by
      rw [← List.sum_map_add]
      refine congrArg _ (List.map_congr_left ?_)
      intro b _
      rw [takeAmt_cons_flip]
    rw [hsplit]
    obtain ⟨b0, hb0l, hb0id, hb0P⟩ := hown pr (List.mem_cons_self pr es)
    have hndf : (ids (l.filter P)).Nodup := by
      have hsub : (l.filter P).Sublist l := List.filter_sublist l
      have hsub2 := List.Sublist.map (fun b : Batch => b.id) hsub
      exact List.Nodup.sublist hsub2 hnd
    have hb0f : b0 ∈ l.filter P := List.mem_filter.2 ⟨hb0l, hb0P⟩
    have hfirst : ((l.filter P).map (fun b => if b.id = pr.1 then pr.2 else 0)).sum = pr.2 := by
      rw [← hb0id]
      exact sum_ite_id_of_mem hndf hb0f pr.2
    rw [hfirst, ih hnd (fun q hq => hown q (List.mem_cons_of_mem pr hq))]
    simp

/-- When every entry's owner lies outside `l.filter P`, the entries
contribute nothing to the filtered table. -/
theorem sum_takeAmt_filter_zero {es : List (Nat × ℚ)} {l : List Batch} {P : Batch → Bool}
    (hnd : (ids l).Nodup)
    (hown : ∀ pr ∈ es, ∃ b ∈ l, b.id = pr.1 ∧ P b = false) :
    (((l.filter P).map (fun b => takeAmt es b.id)).sum) = 0 := by
  have hz : ∀ b ∈ l.filter P, takeAmt es b.id = (0 : ℚ) := by
    intro b hb
    refine takeAmt_eq_zero_of_not_mem ?_
    intro q hq hqi
    obtain ⟨b0, hb0l, hb0id, hb0P⟩ := hown q hq
    have hbl : b ∈ l := (List.mem_filter.1 hb).1
    have hbP : P b = true := (List.mem_filter.1 hb).2
    have hbb : b0 = b := mem_id_unique hnd hb0l hbl (by rw [hb0id, hqi])
    rw [hbb, hbP] at hb0P
    cases hb0P
  rw [List.map_congr_left hz]
  simp

theorem ingSum_applyTakes_sub {es : List (Nat × ℚ)} {l : List Batch} {iid : Nat}
    (hnd : (ids l).Nodup)
    (hown : ∀ pr ∈ es, ∃ b ∈ l, b.id = pr.1 ∧ (b.ingredient_id == iid) = true) :
    ingSum (fun b => b.remaining_quantity) iid (applyTakes es l)
      = ingSum (fun b => b.remaining_quantity) iid l - (es.map (fun pr => pr.2)).sum := by
  unfold ingSum applyTakes
  rw [filter_map_pres
      (F := fun b => { b with remaining_quantity := b.remaining_quantity - takeAmt es b.id })
      (P := fun b => b.ingredient_id == iid) (fun b => rfl), List.map_map]
  have hc : ((fun b => b.remaining_quantity)
        ∘ fun b => { b with remaining_quantity := b.remaining_quantity - takeAmt es b.id })
      = fun b : Batch => b.remaining_quantity - takeAmt es b.id := rfl
  rw [hc, sum_map_sub, sum_takeAmt_filter es hnd hown]

theorem ingSum_applyTakes_other {es : List (Nat × ℚ)} {l : List Batch} {iid : Nat}
    (hnd : (ids l).Nodup)
    (hown : ∀ pr ∈ es, ∃ b ∈ l, b.id = pr.1 ∧ (b.ingredient_id == iid) = false) :
    ingSum (fun b => b.remaining_quantity) iid (applyTakes es l)
      = ingSum (fun b => b.remaining_quantity) iid l := by
  unfold ingSum applyTakes
  rw [filter_map_pres
      (F := fun b => { b with remaining_quantity := b.remaining_quantity - takeAmt es b.id })
      (P := fun b => b.ingredient_id == iid) (fun b => rfl), List.map_map]
  have hc : ((fun b => b.remaining_quantity)
        ∘ fun b => { b with remaining_quantity := b.remaining_quantity - takeAmt es b.id })
      = fun b : Batch => b.remaining_quantity - takeAmt es b.id := rfl
  rw [hc, sum_map_sub, sum_takeAmt_filter_zero hnd hown]
  simp

theorem ingSum_applyTakes_pres {es : List (Nat × ℚ)} {l : List Batch} {iid : Nat}
    (g : Batch → ℚ)
    (hg : ∀ (b : Batch) (t : ℚ), g { b with remaining_quantity := t } = g b) :
    ingSum g iid (applyTakes es l) = ingSum g iid l := by
  unfold ingSum applyTakes
  rw [filter_map_pres
      (F := fun b => { b with remaining_quantity := b.remaining_quantity - takeAmt es b.id })
      (P := fun b => b.ingredient_id == iid) (fun b => rfl), List.map_map]
  refine congrArg _ (List.map_congr_left ?_)
  intro b _
  exact hg b _

theorem ingSum_applyGives_add {es : List (Nat × ℚ)} {l : List Batch} {iid : Nat}
    (hnd : (ids l).Nodup)
    (hown : ∀ pr ∈ es, ∃ b ∈ l, b.id = pr.1 ∧ (b.ingredient_id == iid) = true) :
    ingSum (fun b => b.remaining_quantity) iid (applyGives es l)
      = ingSum (fun b => b.remaining_quantity) iid l + (es.map (fun pr => pr.2)).sum := by
  unfold ingSum applyGives
  rw [filter_map_pres
      (F := fun b => { b with remaining_quantity := b.remaining_quantity + takeAmt es b.id })
      (P := fun b => b.ingredient_id == iid) (fun b => rfl), List.map_map]
  have hc : ((fun b => b.remaining_quantity)
        ∘ fun b => { b with remaining_quantity := b.remaining_quantity + takeAmt es b.id })
      = fun b : Batch => b.remaining_quantity + takeAmt es b.id := rfl
  rw [hc, List.sum_map_add, sum_takeAmt_filter es hnd hown]

theorem ingSum_applyGives_pres {es : List (Nat × ℚ)} {l : List Batch} {iid : Nat}
    (g : Batch → ℚ)
    (hg : ∀ (b : Batch) (t : ℚ), g { b with remaining_quantity := t } = g b) :
    ingSum g iid (applyGives es l) = ingSum g iid l := by
  unfold ingSum applyGives
  rw [filter_map_pres
      (F := fun b => { b with remaining_quantity := b.remaining_quantity + takeAmt es b.id })
      (P := fun b => b.ingredient_id == iid) (fun b => rfl), List.map_map]
  refine congrArg _ (List.map_congr_left ?_)
  intro b _
  exact hg b _

/-- Replacing the unique batch with id `p.id` by `p'` (same id, same
ingredient) shifts the per-ingredient sum by `g p' - g p` when the batch
belongs to the ingredient and leaves it unchanged otherwise. -/
theorem ingSum_update : ∀ {l : List Batch}, (ids l).Nodup →
    ∀ {p : Batch}, p ∈ l → ∀ (p' : Batch), p'.ingredient_id = p.ingredient_id →
    ∀ (iid : Nat) (g : Batch → ℚ),
    ingSum g iid (l.map (fun b => if b.id == p.id then p' else b))
      = ingSum g iid l + (if p.ingredient_id == iid then g p' - g p else 0) := by
  intro l
  induction l with
  | nil => intro _ p hp; cases hp
  | cons a l ih =>
    intro hnd p hp p' hiid iid g
    rcases List.mem_cons.1 hp with rfl | hp'
    · have h2 : ∀ b ∈ l, (if b.id == p.id then p' else b) = b := by
        intro b hb
        rw [if_neg]
        simp only [beq_iff_eq]
        exact id_ne_head_of_nodup hnd hb
      have hrest : l.map (fun b => if b.id == p.id then p' else b) = l := by
        rw [List.map_congr_left h2]
        exact List.map_id l
      rw [List.map_cons, if_pos (by simp : (p.id == p.id) = true), hrest]
      unfold ingSum
      rw [List.filter_cons, List.filter_cons]
      cases hP : (p.ingredient_id == iid) with
      | true =>
        have hP' : (p'.ingredient_id == iid) = true := by rw [hiid]; exact hP
        simp only [hP, hP', if_true, List.map_cons, List.sum_cons]
        ring
      | false =>
        have hP' : (p'.ingredient_id == iid) = false := by rw [hiid]; exact hP
        simp [hP, hP']
    · have hne : (a.id == p.id) = false := by
        simp only [beq_eq_false_iff_ne, ne_eq]
        intro h
        exact (id_ne_head_of_nodup hnd hp') h.symm
      have hihp := ih (nodup_ids_cons hnd) hp' p' hiid iid g
      unfold ingSum at hihp
      have hhead : (if (a.id == p.id) = true then p' else a) = a := by
        rw [hne]
        simp
      rw [List.map_cons, hhead]
      unfold ingSum
      rw [List.filter_cons, List.filter_cons]
      cases hPa : (a.ingredient_id == iid) with
      | true =>
        simp only [if_true, List.map_cons, List.sum_cons]
        rw [hihp]
        ring
      | false =>
        simp only [Bool.false_eq_true, if_false]
        exact hihp

/-! ### Master characterisation of `calculate_fifo_cost` -/

theorem fifoOrdered_perm (batches : List Batch) (iid : Nat) :
    (fifoOrdered batches iid).Perm (batches.filter (fifoPred iid)) :=
  List.perm_insertionSort fifoLe _

theorem fifoOrdered_sorted (batches : List Batch) (iid : Nat) :
    List.Sorted fifoLe (fifoOrdered batches iid) :=
  List.sorted_insertionSort fifoLe _

theorem fifoOrdered_mem {batches : List Batch} {iid : Nat} {b : Batch}
    (h : b ∈ fifoOrdered batches iid) :
    b ∈ batches ∧ b.ingredient_id = iid ∧ 0 < b.remaining_quantity := by
  have hf : b ∈ batches.filter (fifoPred iid) := (fifoOrdered_perm batches iid).mem_iff.1 h
  have h1 := (List.mem_filter.1 hf).1
  have h2 := (List.mem_filter.1 hf).2
  unfold fifoPred at h2
  simp only [Bool.and_eq_true, beq_iff_eq, decide_eq_true_eq] at h2
  exact ⟨h1, h2.1, h2.2⟩

theorem mem_fifoOrdered {batches : List Batch} {iid : Nat} {b : Batch}
    (hb : b ∈ batches) (hi : b.ingredient_id = iid) (hr : 0 < b.remaining_quantity) :
    b ∈ fifoOrdered batches iid := by
  refine (fifoOrdered_perm batches iid).mem_iff.2 ?_
  refine List.mem_filter.2 ⟨hb, ?_⟩
  unfold fifoPred
  simp [hi, hr]

theorem fifoOrdered_pos {batches : List Batch} {iid : Nat} :
    ∀ b ∈ fifoOrdered batches iid, 0 < b.remaining_quantity :=
  fun _ h => (fifoOrdered_mem h).2.2

theorem fifoOrdered_nodup {batches : List Batch} (iid : Nat)
    (hnd : (ids batches).Nodup) : (ids (fifoOrdered batches iid)).Nodup := by
  have hp := List.Perm.map (fun b : Batch => b.id) (fifoOrdered_perm batches iid)
  have hsub := List.Sublist.map (fun b : Batch => b.id)
    (List.filter_sublist (p := fifoPred iid) batches)
  have h2 : (ids (batches.filter (fifoPred iid))).Nodup := List.Nodup.sublist hsub hnd
  exact (List.Perm.nodup_iff hp).2 h2

/-- Owners of the walk entries produced by one allocation: each entry
points at a batch of the allocated ingredient with positive remaining
quantity. -/
theorem fifoWalk_owner {batches : List Batch} {iid : Nat} {need : ℚ} :
    ∀ pr ∈ (fifoWalk need (fifoOrdered batches iid)).2,
      ∃ b ∈ batches, b.id = pr.1 ∧ b.ingredient_id = iid ∧ 0 < b.remaining_quantity := by
  intro pr hpr
  have hid := fifoWalk_ids_sub (fifoOrdered batches iid) need pr hpr
  rcases List.mem_map.1 hid with ⟨b, hb, hbid⟩
  obtain ⟨h1, h2, h3⟩ := fifoOrdered_mem hb
  exact ⟨b, h1, hbid, h2, h3⟩

/-- A batch not selected by the allocation query receives no take. -/
theorem takeAmt_walk_zero {batches : List Batch} {iid : Nat} {need : ℚ}
    (hnd : (ids batches).Nodup) {b : Batch} (hb : b ∈ batches)
    (h : fifoPred iid b = false) :
    takeAmt (fifoWalk need (fifoOrdered batches iid)).2 b.id = 0 := by
  refine takeAmt_eq_zero_of_not_mem ?_
  intro pr hpr hpe
  obtain ⟨b0, hb0, hb0id, hb0i, hb0r⟩ := fifoWalk_owner pr hpr
  have hbb : b0 = b := mem_id_unique hnd hb0 hb (by rw [hb0id, hpe])
  subst hbb
  have htrue : fifoPred iid b0 = true := by
    unfold fifoPred
    simp [hb0i, hb0r]
  rw [htrue] at h
  cases h

/-- Per-batch result of `calculate_fifo_cost` for a batch considered by
the walk: its remaining quantity is decremented by the closed-form take. -/
theorem calculate_fifo_cost_get {ings : List Nat} {batches : List Batch} {iid : Nat}
    {need : ℚ} (hnd : (ids batches).Nodup) (hin : iid ∈ ings)
    (k : Fin (fifoOrdered batches iid).length) :
    findBatch ((fifoOrdered batches iid).get k).id
        (calculate_fifo_cost ings batches iid need).2
      = some { (fifoOrdered batches iid).get k with
               remaining_quantity := ((fifoOrdered batches iid).get k).remaining_quantity
                 - takeClosed need (fifoOrdered batches iid) k } := by
  set b := (fifoOrdered batches iid).get k with hb
  have hbmem : b ∈ fifoOrdered batches iid := hb ▸ List.get_mem _ _ k.2
  have hbb : b ∈ batches := (fifoOrdered_mem hbmem).1
  unfold calculate_fifo_cost
  rw [if_pos hin]
  show findBatch b.id (applyTakes (fifoWalk need (fifoOrdered batches iid)).2 batches) = _
  unfold applyTakes
  rw [findBatch_map_pres
    (f := fun b => { b with remaining_quantity := b.remaining_quantity - takeAmt (fifoWalk need (fifoOrdered batches iid)).2 b.id })
    (fun b => rfl) b.id batches]
  rw [findBatch_of_mem hnd hbb rfl]
  have htk : takeAmt (fifoWalk need (fifoOrdered batches iid)).2 b.id
      = takeClosed need (fifoOrdered batches iid) k := by
    rw [hb]
    exact fifoWalk_takeAmt (fifoOrdered batches iid) (fifoOrdered_nodup iid hnd)
      (fun x hx => le_of_lt (fifoOrdered_pos x hx)) need k
  rw [Option.map_some', htk]

/-- Frame: a batch not selected by the allocation query is unchanged. -/
theorem calculate_fifo_cost_frame {ings : List Nat} {batches : List Batch} {iid : Nat}
    {need : ℚ} (hnd : (ids batches).Nodup) {b : Batch} (hb : b ∈ batches)
    (h : fifoPred iid b = false) :
    findBatch b.id (calculate_fifo_cost ings batches iid need).2 = some b := by
  unfold calculate_fifo_cost
  by_cases hin : iid ∈ ings
  · rw [if_pos hin]
    show findBatch b.id (applyTakes (fifoWalk need (fifoOrdered batches iid)).2 batches) = _
    unfold applyTakes
    rw [findBatch_map_pres
      (f := fun b => { b with remaining_quantity := b.remaining_quantity - takeAmt (fifoWalk need (fifoOrdered batches iid)).2 b.id })
      (fun b => rfl) b.id batches]
    rw [findBatch_of_mem hnd hb rfl, Option.map_some']
    rw [takeAmt_walk_zero hnd hb h, sub_zero]
  · rw [if_neg hin]
    exact findBatch_of_mem hnd hb rfl

/-- The returned cost in closed form. -/
theorem calculate_fifo_cost_value {ings : List Nat} {batches : List Batch} {iid : Nat}
    {need : ℚ} (hin : iid ∈ ings) :
    (calculate_fifo_cost ings batches iid need).1
      = ∑ k : Fin (fifoOrdered batches iid).length,
          takeClosed need (fifoOrdered batches iid) k
            * ((fifoOrdered batches iid).get k).cost_per_unit := by
  unfold calculate_fifo_cost
  rw [if_pos hin]
  exact fifoWalk_cost (fifoOrdered batches iid)
    (fun x hx => le_of_lt (fifoOrdered_pos x hx)) need

/-! ### Machine invariants -/

/-- Well-formedness: batch primary keys are unique and below the next key. -/
def WfSt (st : St) : Prop :=
  (ids st.batches).Nodup ∧ ∀ b ∈ st.batches, b.id < st.nextB

theorem wf_st0 : WfSt st0 := by
  constructor
  · simp [st0, ids]
  · intro b hb
    simp [st0] at hb

theorem ids_applyTakes (es : List (Nat × ℚ)) (l : List Batch) :
    ids (applyTakes es l) = ids l := by
  unfold applyTakes
  exact ids_map_pres
    (f := fun b => { b with remaining_quantity := b.remaining_quantity - takeAmt es b.id })
    (fun b => rfl) l

theorem ids_applyGives (es : List (Nat × ℚ)) (l : List Batch) :
    ids (applyGives es l) = ids l := by
  unfold applyGives
  exact ids_map_pres
    (f := fun b => { b with remaining_quantity := b.remaining_quantity + takeAmt es b.id })
    (fun b => rfl) l

theorem ids_calculate (ings : List Nat) (batches : List Batch) (iid : Nat) (need : ℚ) :
    ids (calculate_fifo_cost ings batches iid need).2 = ids batches := by
  unfold calculate_fifo_cost
  by_cases hin : iid ∈ ings
  · rw [if_pos hin]
    exact ids_applyTakes _ _
  · rw [if_neg hin]

/-- Id preservation of the single-batch replacement map used by the
discard and status routes. -/
theorem ids_replace (n : Nat) (p' : Batch) (hid : p'.id = n) (l : List Batch) :
    ids (l.map (fun b => if b.id == n then p' else b)) = ids l := by
  refine ids_map_pres (f := fun b => if b.id == n then p' else b) ?_ l
  intro b
  show (if (b.id == n) = true then p' else b).id = b.id
  by_cases hb : (b.id == n) = true
  · rw [if_pos hb, hid]
    exact (beq_iff_eq.1 hb).symm
  · rw [if_neg hb]

/-- Id preservation of the remainder-restoring map of the reversal route. -/
theorem ids_addOne (n : Nat) (x : ℚ) (l : List Batch) :
    ids (l.map (fun b =>
      if b.id == n then { b with remaining_quantity := b.remaining_quantity + x } else b))
      = ids l := by
  refine ids_map_pres
    (f := fun b =>
      if b.id == n then { b with remaining_quantity := b.remaining_quantity + x } else b) ?_ l
  intro b
  show (if (b.id == n) = true
      then { b with remaining_quantity := b.remaining_quantity + x } else b).id = b.id
  by_cases hb : (b.id == n) = true
  · rw [if_pos hb]
  · rw [if_neg hb]

theorem discard_item_ids (st : St) (pid : Nat) (amt : Option ℚ) :
    ids (discard_item st pid amt).2.batches = ids st.batches := by
  unfold discard_item
  cases hfb : findBatch pid st.batches with
  | none => rfl
  | some p =>
    have hpid : p.id = pid := (findBatch_eq_some hfb).2
    dsimp only
    by_cases hlt : p.remaining_quantity < amt.getD p.remaining_quantity
    · rw [if_pos hlt]
    · rw [if_neg hlt]
      show ids (st.batches.map _) = ids st.batches
      refine ids_replace pid _ ?_ st.batches
      exact hpid

theorem update_status_ids (st : St) (pid : Nat) (ns : String) :
    ids (update_purchase_status st pid ns).2.batches = ids st.batches := by
  unfold update_purchase_status
  cases hfb : findBatch pid st.batches with
  | none => rfl
  | some p =>
    have hpid : p.id = pid := (findBatch_eq_some hfb).2
    dsimp only
    by_cases hc : ns = "discarded" ∧ p.status ≠ "discarded"
    · rw [if_pos hc]
      show ids (st.batches.map _) = ids st.batches
      refine ids_replace pid _ ?_ st.batches
      exact hpid
    · rw [if_neg hc]

theorem api_delete_usage_ids (st : St) (uid : Nat) :
    ids (api_delete_usage st uid).2.batches = ids st.batches := by
  unfold api_delete_usage
  cases hfu : findUsage uid st.usages with
  | none => rfl
  | some u =>
    dsimp only
    by_cases hlt : 0 < (restoreWalk u.actual_usage
        (List.insertionSort fifoLe (st.batches.filter (restorePred u.ingredient_id)))).1
    · rw [if_pos hlt]
      cases hhd : (List.insertionSort recentLe
          ((applyGives (restoreWalk u.actual_usage
              (List.insertionSort fifoLe (st.batches.filter (restorePred u.ingredient_id)))).2
            st.batches).filter (ingPred u.ingredient_id))).head? with
      | none => exact ids_applyGives _ _
      | some lastp =>
        rw [ids_addOne, ids_applyGives]
    · rw [if_neg hlt]
      exact ids_applyGives _ _

theorem wf_applyOp (st : St) (op : Op) (hwf : WfSt st) : WfSt (applyOp st op) := by
  obtain ⟨hnd, hlt⟩ := hwf
  cases op with
  | purchase j q c d e v =>
    constructor
    · show (ids (st.batches ++ [_])).Nodup
      rw [ids, List.map_append]
      rw [List.nodup_append]
      refine ⟨hnd, List.nodup_singleton _, ?_⟩
      intro x hx hx2
      simp only [List.map_cons, List.map_nil, List.mem_singleton] at hx2
      rcases List.mem_map.1 hx with ⟨b, hb, rfl⟩
      exact absurd hx2 (Nat.ne_of_lt (hlt b hb))
    · intro b hb
      rcases List.mem_append.1 hb with hb | hb
      · exact Nat.lt_succ_of_lt (hlt b hb)
      · simp only [List.mem_singleton] at hb
        subst hb
        exact Nat.lt_succ_self _
  | allocate j q d =>
    refine ⟨?_, ?_⟩
    · show (ids (calculate_fifo_cost st.ingredients st.batches j q).2).Nodup
      rw [ids_calculate]
      exact hnd
    · intro b hb
      show b.id < st.nextB
      have hidm : b.id ∈ ids (calculate_fifo_cost st.ingredients st.batches j q).2 :=
        List.mem_map_of_mem (fun b => b.id) hb
      rw [ids_calculate] at hidm
      rcases List.mem_map.1 hidm with ⟨b0, hb0, hb0id⟩
      rw [← hb0id]
      exact hlt b0 hb0
  | discard p a =>
    dsimp only [applyOp]
    refine ⟨?_, ?_⟩
    · rw [discard_item_ids]
      exact hnd
    · intro b hb
      have hidm : b.id ∈ ids (discard_item st p a).2.batches :=
        List.mem_map_of_mem (fun b => b.id) hb
      rw [discard_item_ids] at hidm
      rcases List.mem_map.1 hidm with ⟨b0, hb0, hb0id⟩
      show b.id < (discard_item st p a).2.nextB
      have hnx : (discard_item st p a).2.nextB = st.nextB := by
        unfold discard_item
        cases findBatch p st.batches with
        | none => rfl
        | some q =>
          dsimp only
          by_cases hlt2 : q.remaining_quantity < a.getD q.remaining_quantity
          · rw [if_pos hlt2]
          · rw [if_neg hlt2]
      rw [hnx, ← hb0id]
      exact hlt b0 hb0
  | setFullyDiscarded p =>
    dsimp only [applyOp]
    refine ⟨?_, ?_⟩
    · rw [update_status_ids]
      exact hnd
    · intro b hb
      have hidm : b.id ∈ ids (update_purchase_status st p "discarded").2.batches :=
        List.mem_map_of_mem (fun b => b.id) hb
      rw [update_status_ids] at hidm
      rcases List.mem_map.1 hidm with ⟨b0, hb0, hb0id⟩
      show b.id < (update_purchase_status st p "discarded").2.nextB
      have hnx : (update_purchase_status st p "discarded").2.nextB = st.nextB := by
        unfold update_purchase_status
        cases findBatch p st.batches with
        | none => rfl
        | some q =>
          dsimp only
          by_cases hc : ("discarded" : String) = "discarded" ∧ q.status ≠ "discarded"
          · rw [if_pos hc]
          · rw [if_neg hc]
      rw [hnx, ← hb0id]
      exact hlt b0 hb0
  | reverseUsage u =>
    dsimp only [applyOp]
    refine ⟨?_, ?_⟩
    · rw [api_delete_usage_ids]
      exact hnd
    · intro b hb
      have hidm : b.id ∈ ids (api_delete_usage st u).2.batches :=
        List.mem_map_of_mem (fun b => b.id) hb
      rw [api_delete_usage_ids] at hidm
      rcases List.mem_map.1 hidm with ⟨b0, hb0, hb0id⟩
      show b.id < (api_delete_usage st u).2.nextB
      have hnx : (api_delete_usage st u).2.nextB = st.nextB := by
        unfold api_delete_usage
        cases findUsage u st.usages with
        | none => rfl
        | some v => rfl
      rw [hnx, ← hb0id]
      exact hlt b0 hb0

theorem wf_run_aux (ops : List Op) : ∀ st, WfSt st → WfSt (ops.foldl applyOp st) := by
  induction ops with
  | nil => intro st h; exact h
  | cons op ops ih =>
    intro st h
    exact ih _ (wf_applyOp st op h)

theorem wf_run (ops : List Op) : WfSt (run ops) := wf_run_aux ops st0 wf_st0

/-! ### Conservation of quantity under purchases, allocations, discards -/

theorem ingSum_append (g : Batch → ℚ) (iid : Nat) (l m : List Batch) :
    ingSum g iid (l ++ m) = ingSum g iid l + ingSum g iid m := by
  unfold ingSum
  rw [List.filter_append, List.map_append, List.sum_append]

theorem ingSum_single (g : Batch → ℚ) (iid : Nat) (b : Batch) :
    ingSum g iid [b] = if b.ingredient_id == iid then g b else 0 := by
  unfold ingSum
  by_cases hb : (b.ingredient_id == iid) = true
  · simp [List.filter_cons, hb]
  · simp [List.filter_cons, hb]

theorem takeAmt_append (es fs : List (Nat × ℚ)) (i : Nat) :
    takeAmt (es ++ fs) i = takeAmt es i + takeAmt fs i := by
  unfold takeAmt
  rw [List.filter_append, List.map_append, List.sum_append]

/-- Total quantity taken by allocations for ingredient `iid`, read off
the allocation log. -/
def allocatedTotal (st : St) (iid : Nat) : ℚ := takeAmt st.allocLog iid

/-- The operations the conservation claim ranges over: purchases,
allocations and discards. -/
def coreOp : Op → Prop
  | Op.purchase _ _ _ _ _ _ => True
  | Op.allocate _ _ _ => True
  | Op.discard _ _ => True
  | Op.setFullyDiscarded _ => False
  | Op.reverseUsage _ => False

/-- Conservation equation for one ingredient: remaining stock plus
allocated quantity plus discarded quantity equals original quantity. -/
def consInv (iid : Nat) (st : St) : Prop :=
  ingSum (fun b => b.remaining_quantity) iid st.batches + allocatedTotal st iid
      + ingSum (fun b => b.discarded_quantity) iid st.batches
    = ingSum (fun b => b.quantity) iid st.batches

theorem cons_step (st : St) (op : Op) (hwf : WfSt st) (hcore : coreOp op) (iid : Nat)
    (hinv : consInv iid st) : consInv iid (applyOp st op) := by
  obtain ⟨hnd, _⟩ := hwf
  cases op with
  | purchase j q c d e v =>
    unfold consInv allocatedTotal at *
    dsimp only [applyOp, recordPurchaseBatch]
    rw [ingSum_append, ingSum_append, ingSum_append,
      ingSum_single, ingSum_single, ingSum_single]
    dsimp only
    split_ifs <;> linarith [hinv]
  | allocate j q d =>
    unfold consInv allocatedTotal at *
    dsimp only [applyOp, cookAllocate]
    rw [takeAmt_append]
    have hone : takeAmt [(j, fifoTakeTotal st.ingredients st.batches j q)] iid
        = if j = iid then fifoTakeTotal st.ingredients st.batches j q else 0 := by
      rw [takeAmt_cons, takeAmt_nil, add_zero]
    rw [hone]
    unfold calculate_fifo_cost fifoTakeTotal
    by_cases hin : j ∈ st.ingredients
    · rw [if_pos hin, if_pos hin]
      dsimp only
      by_cases hj : j = iid
      · subst hj
        have hown : ∀ pr ∈ (fifoWalk q (fifoOrdered st.batches j)).2,
            ∃ b ∈ st.batches, b.id = pr.1 ∧ (b.ingredient_id == j) = true := by
          intro pr hpr
          obtain ⟨b, hb, hbid, hbi, _⟩ := fifoWalk_owner pr hpr
          exact ⟨b, hb, hbid, by simp [hbi]⟩
        rw [ingSum_applyTakes_sub hnd hown]
        rw [ingSum_applyTakes_pres (fun b => b.discarded_quantity) (fun b t => rfl)]
        rw [ingSum_applyTakes_pres (fun b => b.quantity) (fun b t => rfl)]
        rw [if_pos rfl]
        linarith [hinv]
      · have hown : ∀ pr ∈ (fifoWalk q (fifoOrdered st.batches j)).2,
            ∃ b ∈ st.batches, b.id = pr.1 ∧ (b.ingredient_id == iid) = false := by
          intro pr hpr
          obtain ⟨b, hb, hbid, hbi, _⟩ := fifoWalk_owner pr hpr
          refine ⟨b, hb, hbid, ?_⟩
          rw [beq_eq_false_iff_ne, hbi]
          exact hj
        rw [ingSum_applyTakes_other hnd hown]
        rw [ingSum_applyTakes_pres (fun b => b.discarded_quantity) (fun b t => rfl)]
        rw [ingSum_applyTakes_pres (fun b => b.quantity) (fun b t => rfl)]
        rw [if_neg hj]
        linarith [hinv]
    · rw [if_neg hin, if_neg hin]
      by_cases hj : j = iid
      · rw [if_pos hj]
        simpa using hinv
      · rw [if_neg hj]
        simpa using hinv
  | discard pid a =>
    unfold consInv allocatedTotal at *
    dsimp only [applyOp]
    unfold discard_item
    cases hfb : findBatch pid st.batches with
    | none => exact hinv
    | some p =>
      dsimp only
      by_cases hlt : p.remaining_quantity < a.getD p.remaining_quantity
      · rw [if_pos hlt]
        exact hinv
      · rw [if_neg hlt]
        dsimp only
        have hpid : p.id = pid := (findBatch_eq_some hfb).2
        have hpm : p ∈ st.batches := (findBatch_eq_some hfb).1
        rw [← hpid]
        rw [ingSum_update hnd hpm, ingSum_update hnd hpm, ingSum_update hnd hpm]
        · dsimp only
          split_ifs <;> linarith [hinv]
        · rfl
        · rfl
        · rfl
  | setFullyDiscarded p => exact hcore.elim
  | reverseUsage u => exact hcore.elim

theorem consInv_st0 (iid : Nat) : consInv iid st0 := by
  unfold consInv allocatedTotal
  simp [st0, ingSum, takeAmt]

theorem consInv_run_aux (ops : List Op) : ∀ st, WfSt st → (∀ op ∈ ops, coreOp op) →
    ∀ iid, consInv iid st → consInv iid (ops.foldl applyOp st) := by
  induction ops with
  | nil => intro st _ _ iid h; exact h
  | cons op ops ih =>
    intro st hwf hcore iid h
    exact ih (applyOp st op) (wf_applyOp st op hwf)
      (fun x hx => hcore x (List.mem_cons_of_mem op hx)) iid
      (cons_step st op hwf (hcore op (List.mem_cons_self op ops)) iid h)

theorem consInv_run (ops : List Op) (hcore : ∀ op ∈ ops, coreOp op) (iid : Nat) :
    consInv iid (run ops) :=
  consInv_run_aux ops st0 wf_st0 hcore iid (consInv_st0 iid)

/-! ### Nonnegativity of remaining quantities -/

theorem takeAmt_nonneg {es : List (Nat × ℚ)} (h : ∀ pr ∈ es, 0 ≤ pr.2) (i : Nat) :
    0 ≤ takeAmt es i := by
  unfold takeAmt
  refine List.sum_nonneg ?_
  intro x hx
  rcases List.mem_map.1 hx with ⟨pr, hpr, rfl⟩
  exact h pr (List.mem_of_mem_filter hpr)

theorem calculate_rem_nonneg {ings : List Nat} {batches : List Batch} {iid : Nat} {need : ℚ}
    (hnd : (ids batches).Nodup) (hpos : ∀ b ∈ batches, 0 ≤ b.remaining_quantity) :
    ∀ x ∈ (calculate_fifo_cost ings batches iid need).2, 0 ≤ x.remaining_quantity := by
  intro x hx
  unfold calculate_fifo_cost at hx
  by_cases hin : iid ∈ ings
  · rw [if_pos hin] at hx
    dsimp only at hx
    unfold applyTakes at hx
    rcases List.mem_map.1 hx with ⟨b, hb, rfl⟩
    dsimp only
    by_cases hP : fifoPred iid b = true
    · have hbo : b ∈ fifoOrdered batches iid := by
        unfold fifoPred at hP
        simp only [Bool.and_eq_true, beq_iff_eq, decide_eq_true_eq] at hP
        exact mem_fifoOrdered hb hP.1 hP.2
      rcases List.mem_iff_get.1 hbo with ⟨k, hk⟩
      have htk := fifoWalk_takeAmt (fifoOrdered batches iid) (fifoOrdered_nodup iid hnd)
        (fun y hy => le_of_lt (fifoOrdered_pos y hy)) need k
      have hle : takeClosed need (fifoOrdered batches iid) k
          ≤ ((fifoOrdered batches iid).get k).remaining_quantity := min_le_left _ _
      rw [hk] at htk hle
      rw [htk]
      linarith
    · have hPf : fifoPred iid b = false := by
        revert hP; cases fifoPred iid b <;> simp
      rw [takeAmt_walk_zero hnd hb hPf, sub_zero]
      exact hpos b hb
  · rw [if_neg hin] at hx
    exact hpos x hx

/-- Purchases in the conservation and bounds claims record nonnegative
quantities. -/
def purchaseNonneg : Op → Prop
  | Op.purchase _ q _ _ _ _ => 0 ≤ q
  | _ => True

theorem nonneg_step (st : St) (op : Op) (hwf : WfSt st) (hq : purchaseNonneg op)
    (hpos : ∀ b ∈ st.batches, 0 ≤ b.remaining_quantity) :
    ∀ b ∈ (applyOp st op).batches, 0 ≤ b.remaining_quantity := by
  obtain ⟨hnd, _⟩ := hwf
  cases op with
  | purchase j q c d e v =>
    intro b hb
    dsimp only [applyOp, recordPurchaseBatch] at hb
    rcases List.mem_append.1 hb with hb | hb
    · exact hpos b hb
    · simp only [List.mem_singleton] at hb
      subst hb
      exact hq
  | allocate j q d =>
    intro b hb
    dsimp only [applyOp, cookAllocate] at hb
    exact calculate_rem_nonneg hnd hpos b hb
  | discard pid a =>
    intro b hb
    dsimp only [applyOp] at hb
    unfold discard_item at hb
    cases hfb : findBatch pid st.batches with
    | none => rw [hfb] at hb; exact hpos b hb
    | some p =>
      rw [hfb] at hb
      dsimp only at hb
      by_cases hlt : p.remaining_quantity < a.getD p.remaining_quantity
      · rw [if_pos hlt] at hb
        exact hpos b hb
      · rw [if_neg hlt] at hb
        dsimp only at hb
        rcases List.mem_map.1 hb with ⟨b0, hb0, rfl⟩
        by_cases hbid : (b0.id == pid) = true
        · rw [if_pos hbid]
          dsimp only
          push_neg at hlt
          linarith
        · rw [if_neg hbid]
          exact hpos b0 hb0
  | setFullyDiscarded pid =>
    intro b hb
    dsimp only [applyOp] at hb
    unfold update_purchase_status at hb
    cases hfb : findBatch pid st.batches with
    | none => rw [hfb] at hb; exact hpos b hb
    | some p =>
      rw [hfb] at hb
      dsimp only at hb
      by_cases hc : ("discarded" : String) = "discarded" ∧ p.status ≠ "discarded"
      · rw [if_pos hc] at hb
        dsimp only at hb
        rcases List.mem_map.1 hb with ⟨b0, hb0, rfl⟩
        by_cases hbid : (b0.id == pid) = true
        · rw [if_pos hbid]
        · rw [if_neg hbid]
          exact hpos b0 hb0
      · rw [if_neg hc] at hb
        exact hpos b hb
  | reverseUsage uid =>
    intro b hb
    dsimp only [applyOp] at hb
    unfold api_delete_usage at hb
    cases hfu : findUsage uid st.usages with
    | none => rw [hfu] at hb; exact hpos b hb
    | some u =>
      rw [hfu] at hb
      dsimp only at hb
      have hgives : ∀ pr ∈ (restoreWalk u.actual_usage
          (List.insertionSort fifoLe (st.batches.filter (restorePred u.ingredient_id)))).2,
          0 ≤ pr.2 := by
        refine restoreWalk_gives_nonneg _ ?_ _
        intro x hx
        have hxf : x ∈ st.batches.filter (restorePred u.ingredient_id) :=
          (List.perm_insertionSort fifoLe _).mem_iff.1 hx
        have := (List.mem_filter.1 hxf).2
        unfold restorePred at this
        simp only [Bool.and_eq_true, decide_eq_true_eq] at this
        exact this.2
      have h1 : ∀ x ∈ applyGives (restoreWalk u.actual_usage
          (List.insertionSort fifoLe (st.batches.filter (restorePred u.ingredient_id)))).2
          st.batches, 0 ≤ x.remaining_quantity := by
        intro x hx
        unfold applyGives at hx
        rcases List.mem_map.1 hx with ⟨b0, hb0, rfl⟩
        dsimp only
        have ht := takeAmt_nonneg hgives b0.id
        have hp0 := hpos b0 hb0
        linarith
      by_cases hw1 : 0 < (restoreWalk u.actual_usage
          (List.insertionSort fifoLe (st.batches.filter (restorePred u.ingredient_id)))).1
      · rw [if_pos hw1] at hb
        cases hhd : (List.insertionSort recentLe
            ((applyGives (restoreWalk u.actual_usage
                (List.insertionSort fifoLe (st.batches.filter (restorePred u.ingredient_id)))).2
              st.batches).filter (ingPred u.ingredient_id))).head? with
        | none =>
          rw [hhd] at hb
          exact h1 b hb
        | some lastp =>
          rw [hhd] at hb
          rcases List.mem_map.1 hb with ⟨b0, hb0, rfl⟩
          by_cases hbid : (b0.id == lastp.id) = true
          · rw [if_pos hbid]
            dsimp only
            have := h1 b0 hb0
            linarith
          · rw [if_neg hbid]
            exact h1 b0 hb0
      · rw [if_neg hw1] at hb
        exact h1 b hb

theorem nonneg_run_aux (ops : List Op) : ∀ st, WfSt st →
    (∀ op ∈ ops, purchaseNonneg op) →
    (∀ b ∈ st.batches, 0 ≤ b.remaining_quantity) →
    ∀ b ∈ (ops.foldl applyOp st).batches, 0 ≤ b.remaining_quantity := by
  induction ops with
  | nil => intro st _ _ h; exact h
  | cons op ops ih =>
    intro st hwf hq h
    exact ih (applyOp st op) (wf_applyOp st op hwf)
      (fun x hx => hq x (List.mem_cons_of_mem op hx))
      (nonneg_step st op hwf (hq op (List.mem_cons_self op ops)) h)

/-! ### Unit cost is fixed at creation -/

theorem findBatch_map_pres_cost {l : List Batch} {i : Nat} {b : Batch} {F : Batch → Batch}
    (hb : findBatch i l = some b)
    (hfid : ∀ x, (F x).id = x.id)
    (hfc : (F b).cost_per_unit = b.cost_per_unit) :
    ∃ b', findBatch i (l.map F) = some b' ∧ b'.cost_per_unit = b.cost_per_unit := by
  refine ⟨F b, ?_, hfc⟩
  rw [findBatch_map_pres hfid i l, hb, Option.map_some']

theorem cost_frame_step (st : St) (op : Op) {i : Nat} {b : Batch}
    (hb : findBatch i st.batches = some b) :
    ∃ b', findBatch i (applyOp st op).batches = some b'
      ∧ b'.cost_per_unit = b.cost_per_unit := by
  cases op with
  | purchase j q c d e v =>
    refine ⟨b, ?_, rfl⟩
    dsimp only [applyOp, recordPurchaseBatch]
    unfold findBatch at hb
    unfold findBatch
    rw [List.find?_append, hb]
    rfl
  | allocate j q d =>
    dsimp only [applyOp, cookAllocate]
    unfold calculate_fifo_cost
    by_cases hin : j ∈ st.ingredients
    · rw [if_pos hin]
      dsimp only
      unfold applyTakes
      exact findBatch_map_pres_cost hb (fun x => rfl) rfl
    · rw [if_neg hin]
      exact ⟨b, hb, rfl⟩
  | discard pid a =>
    dsimp only [applyOp]
    unfold discard_item
    cases hfb : findBatch pid st.batches with
    | none => exact ⟨b, hb, rfl⟩
    | some p =>
      dsimp only
      by_cases hlt : p.remaining_quantity < a.getD p.remaining_quantity
      · rw [if_pos hlt]
        exact ⟨b, hb, rfl⟩
      · rw [if_neg hlt]
        dsimp only
        have hpid : p.id = pid := (findBatch_eq_some hfb).2
        refine findBatch_map_pres_cost hb ?_ ?_
        · intro x
          by_cases hx : (x.id == pid) = true
          · rw [if_pos hx]
            dsimp only
            rw [hpid]
            exact (beq_iff_eq.1 hx).symm
          · rw [if_neg hx]
        · by_cases hx : (b.id == pid) = true
          · rw [if_pos hx]
            dsimp only
            have hbi : b.id = i := (findBatch_eq_some hb).2
            have hipid : i = pid := by rw [← hbi]; exact beq_iff_eq.1 hx
            subst hipid
            rw [hb] at hfb
            injection hfb with hbp
            rw [hbp]
          · rw [if_neg hx]
  | setFullyDiscarded pid =>
    dsimp only [applyOp]
    unfold update_purchase_status
    cases hfb : findBatch pid st.batches with
    | none => exact ⟨b, hb, rfl⟩
    | some p =>
      dsimp only
      by_cases hc : ("discarded" : String) = "discarded" ∧ p.status ≠ "discarded"
      · rw [if_pos hc]
        dsimp only
        have hpid : p.id = pid := (findBatch_eq_some hfb).2
        refine findBatch_map_pres_cost hb ?_ ?_
        · intro x
          by_cases hx : (x.id == pid) = true
          · rw [if_pos hx]
            dsimp only
            rw [hpid]
            exact (beq_iff_eq.1 hx).symm
          · rw [if_neg hx]
        · by_cases hx : (b.id == pid) = true
          · rw [if_pos hx]
            dsimp only
            have hbi : b.id = i := (findBatch_eq_some hb).2
            have hipid : i = pid := by rw [← hbi]; exact beq_iff_eq.1 hx
            subst hipid
            rw [hb] at hfb
            injection hfb with hbp
            rw [hbp]
          · rw [if_neg hx]
      · rw [if_neg hc]
        exact ⟨b, hb, rfl⟩
  | reverseUsage uid =>
    dsimp only [applyOp]
    unfold api_delete_usage
    cases hfu : findUsage uid st.usages with
    | none => exact ⟨b, hb, rfl⟩
    | some u =>
      dsimp only
      have h1 : ∃ b1, findBatch i (applyGives (restoreWalk u.actual_usage
          (List.insertionSort fifoLe (st.batches.filter (restorePred u.ingredient_id)))).2
            st.batches) = some b1 ∧ b1.cost_per_unit = b.cost_per_unit := by
        unfold applyGives
        exact findBatch_map_pres_cost hb (fun x => rfl) rfl
      obtain ⟨b1, hb1, hc1⟩ := h1
      by_cases hw1 : 0 < (restoreWalk u.actual_usage
          (List.insertionSort fifoLe (st.batches.filter (restorePred u.ingredient_id)))).1
      · rw [if_pos hw1]
        cases hhd : (List.insertionSort recentLe
            ((applyGives (restoreWalk u.actual_usage
                (List.insertionSort fifoLe (st.batches.filter (restorePred u.ingredient_id)))).2
              st.batches).filter (ingPred u.ingredient_id))).head? with
        | none => exact ⟨b1, hb1, hc1⟩
        | some lastp =>
          have hfid : ∀ x : Batch, ((fun x : Batch => if x.id == lastp.id
              then { x with remaining_quantity := x.remaining_quantity
                + (restoreWalk u.actual_usage (List.insertionSort fifoLe
                    (st.batches.filter (restorePred u.ingredient_id)))).1 }
              else x) x).id = x.id := by
            intro x
            by_cases hx : (x.id == lastp.id) = true
            · show (if (x.id == lastp.id) = true then _ else x).id = x.id
              rw [if_pos hx]
            · show (if (x.id == lastp.id) = true then _ else x).id = x.id
              rw [if_neg hx]
          obtain ⟨b2, hb2, hc2⟩ := findBatch_map_pres_cost hb1 hfid (by
            by_cases hx : (b1.id == lastp.id) = true
            · show (if (b1.id == lastp.id) = true then _ else b1).cost_per_unit
                = b1.cost_per_unit
              rw [if_pos hx]
            · show (if (b1.id == lastp.id) = true then _ else b1).cost_per_unit
                = b1.cost_per_unit
              rw [if_neg hx])
          exact ⟨b2, hb2, hc2.trans hc1⟩
      · rw [if_neg hw1]
        exact ⟨b1, hb1, hc1⟩

theorem cost_frame_fold (ops : List Op) : ∀ st {i : Nat} {b : Batch},
    findBatch i st.batches = some b →
    ∃ b', findBatch i (ops.foldl applyOp st).batches = some b'
      ∧ b'.cost_per_unit = b.cost_per_unit := by
  induction ops with
  | nil => intro st i b h; exact ⟨b, h, rfl⟩
  | cons op ops ih =>
    intro st i b h
    obtain ⟨b1, hb1, hc1⟩ := cost_frame_step st op h
    obtain ⟨b2, hb2, hc2⟩ := ih (applyOp st op) hb1
    exact ⟨b2, hb2, hc2.trans hc1⟩

/-! ### Characterisation of usage reversal -/

theorem api_delete_usage_props (st : St) (uid : Nat) {u : UsageR}
    (hu : findUsage uid st.usages = some u)
    (hnd : (ids st.batches).Nodup)
    (hq : 0 ≤ u.actual_usage)
    (hex : ∃ b ∈ st.batches, b.ingredient_id = u.ingredient_id) :
    (api_delete_usage st uid).1 = Resp.ok
    ∧ ingSum (fun b => b.remaining_quantity) u.ingredient_id
          (api_delete_usage st uid).2.batches
        = ingSum (fun b => b.remaining_quantity) u.ingredient_id st.batches
          + u.actual_usage
    ∧ findUsage uid (api_delete_usage st uid).2.usages = none
    ∧ api_delete_usage (api_delete_usage st uid).2 uid
        = (Resp.notFound, (api_delete_usage st uid).2) := by
  have hrespstate : (api_delete_usage st uid).2.usages
      = st.usages.filter (fun v => !(v.id == uid)) := by
    unfold api_delete_usage
    rw [hu]
  have hnone : findUsage uid (api_delete_usage st uid).2.usages = none := by
    rw [hrespstate]
    unfold findUsage
    rw [List.find?_eq_none]
    intro v hv
    have := (List.mem_filter.1 hv).2
    simp only [Bool.not_eq_eq_eq_not, Bool.not_true] at this
    simp [this]
  refine ⟨?_, ?_, hnone, ?_⟩
  · unfold api_delete_usage
    rw [hu]
  · unfold api_delete_usage
    rw [hu]
    dsimp only
    set L := List.insertionSort fifoLe (st.batches.filter (restorePred u.ingredient_id))
      with hL
    set w := restoreWalk u.actual_usage L with hwdef
    have hown : ∀ pr ∈ w.2,
        ∃ b ∈ st.batches, b.id = pr.1 ∧ (b.ingredient_id == u.ingredient_id) = true := by
      intro pr hpr
      have hidm := restoreWalk_ids_sub L u.actual_usage pr (by rw [← hwdef]; exact hpr)
      rcases List.mem_map.1 hidm with ⟨b, hbL, hbid⟩
      have hbf : b ∈ st.batches.filter (restorePred u.ingredient_id) := by
        refine (List.perm_insertionSort fifoLe _).mem_iff.1 ?_
        rw [← hL]
        exact hbL
      refine ⟨b, (List.mem_filter.1 hbf).1, hbid, ?_⟩
      have hrp := (List.mem_filter.1 hbf).2
      unfold restorePred at hrp
      simp only [Bool.and_eq_true] at hrp
      exact hrp.1
    have h1 := ingSum_applyGives_add hnd hown
    have htot : w.1 + (w.2.map (fun pr => pr.2)).sum = u.actual_usage := by
      rw [hwdef]
      exact restoreWalk_total L u.actual_usage
    by_cases hw1 : 0 < w.1
    · rw [if_pos hw1]
      obtain ⟨b0, hb0, hb0i⟩ := hex
      set b0g : Batch :=
        { b0 with remaining_quantity := b0.remaining_quantity + takeAmt w.2 b0.id }
        with hb0g
      have hb0in : b0g ∈ applyGives w.2 st.batches := by
        rw [hb0g]
        unfold applyGives
        exact List.mem_map_of_mem _ hb0
      have hb0gi : b0g.ingredient_id = u.ingredient_id := by
        rw [hb0g]
        exact hb0i
      cases hhd : (List.insertionSort recentLe
          ((applyGives w.2 st.batches).filter (ingPred u.ingredient_id))).head? with
      | none =>
        exfalso
        rw [List.head?_eq_none_iff] at hhd
        have hmem : b0g ∈ List.insertionSort recentLe
            ((applyGives w.2 st.batches).filter (ingPred u.ingredient_id)) := by
          refine (List.perm_insertionSort recentLe _).mem_iff.2 ?_
          refine List.mem_filter.2 ⟨hb0in, ?_⟩
          show (b0g.ingredient_id == u.ingredient_id) = true
          rw [beq_iff_eq]
          exact hb0gi
        rw [hhd] at hmem
        cases hmem
      | some lastp =>
        have hlastmem : lastp ∈ (applyGives w.2 st.batches).filter
            (ingPred u.ingredient_id) := by
          have hm : lastp ∈ List.insertionSort recentLe
              ((applyGives w.2 st.batches).filter (ingPred u.ingredient_id)) :=
            List.mem_of_mem_head? (by rw [hhd]; exact rfl)
          exact (List.perm_insertionSort recentLe _).mem_iff.1 hm
        have hlast1 : lastp ∈ applyGives w.2 st.batches := (List.mem_filter.1 hlastmem).1
        have hlasti : (lastp.ingredient_id == u.ingredient_id) = true := by
          have := (List.mem_filter.1 hlastmem).2
          unfold ingPred at this
          exact this
        have hnd1 : (ids (applyGives w.2 st.batches)).Nodup := by
          rw [ids_applyGives]
          exact hnd
        have h2 := ingSum_update hnd1 hlast1
          { lastp with remaining_quantity := lastp.remaining_quantity + w.1 }
          rfl u.ingredient_id (fun b => b.remaining_quantity)
        dsimp only
        have hcongr : (applyGives w.2 st.batches).map
            (fun b => if b.id == lastp.id
              then { b with remaining_quantity := b.remaining_quantity + w.1 } else b)
          = (applyGives w.2 st.batches).map
            (fun b => if b.id == lastp.id
              then { lastp with remaining_quantity := lastp.remaining_quantity + w.1 }
              else b) := by
          refine List.map_congr_left ?_
          intro b hbmem
          by_cases hid : (b.id == lastp.id) = true
          · rw [if_pos hid, if_pos hid]
            have hbeq : b = lastp := mem_id_unique hnd1 hbmem hlast1 (beq_iff_eq.1 hid)
            rw [hbeq]
          · rw [if_neg hid, if_neg hid]
        rw [hcongr]
        rw [h2, h1, if_pos hlasti]
        dsimp only
        linarith [htot]
    · rw [if_neg hw1]
      have hge : 0 ≤ w.1 := by
        rw [hwdef]
        exact restoreWalk_leftover_nonneg L u.actual_usage hq
      push_neg at hw1
      have hz : w.1 = 0 := le_antisymm hw1 hge
      rw [h1]
      rw [hz] at htot
      linarith [htot]
  · have hgen : ∀ s2 : St, findUsage uid s2.usages = none →
        api_delete_usage s2 uid = (Resp.notFound, s2) := by
      intro s2 h2
      unfold api_delete_usage
      rw [h2]
    exact hgen _ hnone

/-! ### Aggregates: monthly totals versus per-day figures -/

theorem dailyUsageStat_cons (v : UsageR) (us : List UsageR) (d : Nat) :
    dailyUsageStat (v :: us) d
      = (if v.usage_date = d then v.cost else 0) + dailyUsageStat us d := by
  unfold dailyUsageStat
  by_cases h : v.usage_date = d
  · simp [List.filter_cons, h]
  · simp [List.filter_cons, h]

theorem monthlyUsageTotal_cons (v : UsageR) (us : List UsageR) (lo hi : Nat) :
    monthlyUsageTotal (v :: us) lo hi
      = (if lo ≤ v.usage_date ∧ v.usage_date < hi then v.cost else 0)
        + monthlyUsageTotal us lo hi := by
  unfold monthlyUsageTotal
  by_cases h1 : lo ≤ v.usage_date
  · by_cases h2 : v.usage_date < hi
    · simp [List.filter_cons, h1, h2]
    · simp [List.filter_cons, h1, h2]
  · simp [List.filter_cons, h1]

theorem dailyWasteStat_cons (e : EventR) (es : List EventR) (d : Nat) :
    dailyWasteStat (e :: es) d
      = (if e.date = d ∧ 0 < e.total_waste then e.total_waste else 0)
        + dailyWasteStat es d := by
  unfold dailyWasteStat
  by_cases h1 : e.date = d
  · by_cases h2 : 0 < e.total_waste
    · simp [List.filter_cons, h1, h2]
    · simp [List.filter_cons, h1, h2]
  · simp [List.filter_cons, h1]

theorem monthlyWasteTotal_cons (e : EventR) (es : List EventR) (lo hi : Nat) :
    monthlyWasteTotal (e :: es) lo hi
      = (if lo ≤ e.date ∧ e.date < hi then e.total_waste else 0)
        + monthlyWasteTotal es lo hi := by
  unfold monthlyWasteTotal
  by_cases h1 : lo ≤ e.date
  · by_cases h2 : e.date < hi
    · simp [List.filter_cons, h1, h2]
    · simp [List.filter_cons, h1, h2]
  · simp [List.filter_cons, h1]

/-- The dashboard's monthly consumption total is the sum of the
`monthly_stats` per-day consumption figures over the month's days. -/
theorem monthlyUsage_eq_sum_daily (us : List UsageR) (lo hi : Nat) :
    monthlyUsageTotal us lo hi = ∑ d in Finset.Ico lo hi, dailyUsageStat us d := by
  induction us with
  | nil =>
    rw [show monthlyUsageTotal [] lo hi = 0 from rfl]
    symm
    refine Finset.sum_eq_zero ?_
    intro d _
    rfl
  | cons v us ih =>
    rw [monthlyUsageTotal_cons, ih]
    rw [Finset.sum_congr rfl (fun d _ => dailyUsageStat_cons v us d)]
    rw [Finset.sum_add_distrib]
    congr 1
    rw [Finset.sum_ite_eq]
    simp [Finset.mem_Ico]

/-- The dashboard's monthly waste total is the sum of the `monthly_stats`
per-day waste figures, provided no event in the table has negative
`total_waste`. -/
theorem monthlyWaste_eq_sum_daily (es : List EventR) (lo hi : Nat)
    (hw : ∀ e ∈ es, 0 ≤ e.total_waste) :
    monthlyWasteTotal es lo hi = ∑ d in Finset.Ico lo hi, dailyWasteStat es d := by
  induction es with
  | nil =>
    rw [show monthlyWasteTotal [] lo hi = 0 from rfl]
    symm
    refine Finset.sum_eq_zero ?_
    intro d _
    rfl
  | cons e es ih =>
    rw [monthlyWasteTotal_cons,
      ih (fun x hx => hw x (List.mem_cons_of_mem e hx))]
    rw [Finset.sum_congr rfl (fun d _ => dailyWasteStat_cons e es d)]
    rw [Finset.sum_add_distrib]
    congr 1
    by_cases hpos : 0 < e.total_waste
    · have hconv : ∀ d ∈ Finset.Ico lo hi,
          (if e.date = d ∧ 0 < e.total_waste then e.total_waste else 0)
            = (if e.date = d then e.total_waste else 0) := by
        intro d _
        by_cases hd : e.date = d
        · rw [if_pos ⟨hd, hpos⟩, if_pos hd]
        · rw [if_neg (fun hc => hd hc.1), if_neg hd]
      rw [Finset.sum_congr rfl hconv, Finset.sum_ite_eq]
      simp [Finset.mem_Ico]
    · have hz : e.total_waste = 0 :=
        le_antisymm (not_lt.1 hpos) (hw e (List.mem_cons_self e es))
      have hconv : ∀ d ∈ Finset.Ico lo hi,
          (if e.date = d ∧ 0 < e.total_waste then e.total_waste else 0) = (0 : ℚ) := by
        intro d _
        rw [if_neg (fun hc => hpos hc.2)]
      rw [Finset.sum_congr rfl hconv]
      rw [hz]
      simp

/-! ### Allocation shortfall: draining every batch -/

theorem sum_fin_get (l : List Batch) (f : Batch → ℚ) :
    ∑ k : Fin l.length, f (l.get k) = (l.map f).sum := by
  induction l with
  | nil => simp
  | cons a l ih =>
    show ∑ k : Fin (l.length + 1), f ((a :: l).get k) = (List.map f (a :: l)).sum
    rw [Fin.sum_univ_succ]
    have h2 : ∀ j : Fin l.length, f ((a :: l).get j.succ) = f (l.get j) := fun j => rfl
    rw [Finset.sum_congr rfl (fun j _ => h2 j), ih]
    rfl

theorem prefRem_succ {l : List Batch} (k : Fin l.length) :
    prefRem l (k.1 + 1) = prefRem l k.1 + (l.get k).remaining_quantity := by
  unfold prefRem
  rw [List.take_succ]
  have hg : l[(k.1)]? = some (l.get k) := by
    rw [← List.get?_eq_getElem?]
    exact List.get?_eq_get k.2
  rw [hg]
  simp

theorem prefRem_le_sum {l : List Batch} (hpos : ∀ b ∈ l, 0 ≤ b.remaining_quantity)
    (k : Nat) : prefRem l k ≤ (l.map (fun b => b.remaining_quantity)).sum := by
  unfold prefRem
  conv_rhs => rw [← List.take_append_drop k l]
  rw [List.map_append, List.sum_append]
  have h : 0 ≤ ((l.drop k).map (fun b => b.remaining_quantity)).sum := by
    refine List.sum_nonneg ?_
    intro x hx
    rcases List.mem_map.1 hx with ⟨b, hb, rfl⟩
    exact hpos b (List.mem_of_mem_drop hb)
  linarith

/-- When demand exceeds the total positive remaining stock, the closed-form
take drains each considered batch entirely. -/
theorem takeClosed_of_sum_lt {l : List Batch} (hpos : ∀ b ∈ l, 0 < b.remaining_quantity)
    {need : ℚ} (hS : (l.map (fun b => b.remaining_quantity)).sum < need)
    (k : Fin l.length) : takeClosed need l k = (l.get k).remaining_quantity := by
  unfold takeClosed
  have h1 : prefRem l (k.1 + 1) ≤ (l.map (fun b => b.remaining_quantity)).sum :=
    prefRem_le_sum (fun b hb => le_of_lt (hpos b hb)) (k.1 + 1)
  rw [prefRem_succ] at h1
  have h2 : (l.get k).remaining_quantity ≤ need - prefRem l k.1 := by linarith
  have h3 : 0 < (l.get k).remaining_quantity := hpos _ (List.get_mem _ _ k.2)
  rw [max_eq_right (by linarith)]
  exact min_eq_left h2

/-- A per-ingredient sum collapses to the allocation query's batches when
the field vanishes on batches with no remaining quantity. -/
theorem ingSum_eq_predSum (g : Batch → ℚ) (iid : Nat) : ∀ (l : List Batch),
    (∀ b ∈ l, b.ingredient_id = iid → ¬(0 < b.remaining_quantity) → g b = 0) →
    ingSum g iid l = ((l.filter (fifoPred iid)).map g).sum := by
  intro l
  induction l with
  | nil => intro _; rfl
  | cons a l ih =>
    intro hg
    have ihl := ih (fun b hb => hg b (List.mem_cons_of_mem a hb))
    unfold ingSum at *
    rw [List.filter_cons, List.filter_cons]
    by_cases hi : (a.ingredient_id == iid) = true
    · by_cases hr : 0 < a.remaining_quantity
      · have hp : fifoPred iid a = true := by
          unfold fifoPred
          simp [beq_iff_eq.1 hi, hr]
        rw [hi, hp]
        simp only [if_true, List.map_cons, List.sum_cons]
        rw [ihl]
      · have hp : fifoPred iid a = false := by
          unfold fifoPred
          simp only [Bool.and_eq_false_iff, decide_eq_false_iff_not]
          exact Or.inr hr
        have hz : g a = 0 := hg a (List.mem_cons_self a l) (beq_iff_eq.1 hi) hr
        rw [hi, hp]
        simp only [if_true, Bool.false_eq_true, if_false, List.map_cons, List.sum_cons]
        rw [hz, ihl, zero_add]
    · have hp : fifoPred iid a = false := by
        unfold fifoPred
        simp only [Bool.and_eq_false_iff]
        left
        revert hi
        cases (a.ingredient_id == iid) <;> simp
      have hif : (a.ingredient_id == iid) = false := by
        revert hi
        cases (a.ingredient_id == iid) <;> simp
      rw [hif, hp]
      simp only [Bool.false_eq_true, if_false]
      exact ihl

/-! ### The worked example and concrete states -/

/-- Batch A of the specification's worked example: quantity 10 at unit
cost 2, purchased on day 1. -/
def batchA : Batch := ⟨1, 1, 1, none, 10, 10, 2, none, "active", 0, 0⟩

/-- Batch B of the worked example: quantity 10 at unit cost 3, purchased
on day 2. -/
def batchB : Batch := ⟨2, 1, 2, none, 10, 10, 3, none, "active", 0, 0⟩

/-- A one-batch state used by the concrete witnesses. -/
def stD : St := ⟨[1], [batchA], [], [], 2, 0, []⟩

/-! ### Claims -/

theorem fifoWalk_nonpos {need : ℚ} (h : need ≤ 0) :
    ∀ (l : List Batch), fifoWalk need l = (0, []) := by
  intro l
  cases l with
  | nil => rfl
  | cons p ps => rw [fifoWalk, if_pos h]

theorem applyTakes_nil_entries (l : List Batch) : applyTakes [] l = l := by
  unfold applyTakes
  have h : ∀ b ∈ l,
      ({ b with remaining_quantity := b.remaining_quantity - takeAmt [] b.id } : Batch)
        = b := by
    intro b _
    rw [takeAmt_nil, sub_zero]
  rw [List.map_congr_left h]
  exact List.map_id l

/-- **C10** — a zero or negative requested quantity is a no-op: the FIFO
allocation returns cost 0 and the batch table is returned unchanged, for
every ingredient (known or not). -/
theorem C10_nonpositive_request_noop (ings : List Nat) (batches : List Batch)
    (iid : Nat) (need : ℚ) (h : need ≤ 0) :
    calculate_fifo_cost ings batches iid need = (0, batches) := by
  unfold calculate_fifo_cost
  by_cases hin : iid ∈ ings
  · rw [if_pos hin]
    dsimp only
    rw [fifoWalk_nonpos h, applyTakes_nil_entries]
  · rw [if_neg hin]

/-- Witness for C10: allocating 0, and allocating a negative quantity,
from the concrete one-batch store changes nothing and costs 0. -/
theorem C10_nonpositive_request_noop_witness :
    calculate_fifo_cost [1] [batchA] 1 0 = (0, [batchA])
    ∧ calculate_fifo_cost [1] [batchA] 1 (-5) = (0, [batchA]) :=
  ⟨C10_nonpositive_request_noop [1] [batchA] 1 0 (by norm_num),
   C10_nonpositive_request_noop [1] [batchA] 1 (-5) (by norm_num)⟩

/-- **C7 counterexample** — allocating an unknown ingredient id (5) does
not fail with `NotFound`: `calculate_fifo_cost` returns the ordinary
result `0.0` with the batch table untouched, and the `/cook` flow built
on it completes normally, recording a `Usage` row with cost 0. -/
theorem C7_unknown_ingredient_counterexample :
    calculate_fifo_cost [1] [batchA] 5 3 = (0, [batchA])
    ∧ (cookAllocate stD 5 3 7).batches = stD.batches
    ∧ (cookAllocate stD 5 3 7).usages = [⟨0, 5, 7, 3, 0⟩] := by
  refine ⟨?_, ?_, ?_⟩
  · norm_num [calculate_fifo_cost]
  · norm_num [cookAllocate, calculate_fifo_cost, stD]
  · norm_num [cookAllocate, calculate_fifo_cost, fifoTakeTotal, stD]

/-- **C7 (amended)** — for every ingredient id not present in the
ingredient table, allocation returns cost `0` and leaves every batch
unchanged; it does not fail. -/
theorem C7_unknown_ingredient_amended (ings : List Nat) (batches : List Batch)
    (iid : Nat) (need : ℚ) (h : iid ∉ ings) :
    calculate_fifo_cost ings batches iid need = (0, batches) := by
  unfold calculate_fifo_cost
  rw [if_neg h]

/-- Witness for the amended C7 at a concrete unknown ingredient. -/
theorem C7_unknown_ingredient_amended_witness :
    calculate_fifo_cost [1] [batchA] 5 3 = (0, [batchA]) :=
  C7_unknown_ingredient_amended [1] [batchA] 5 3 (by decide)

/-- **C5 counterexample** — a negative discard amount is accepted: the
route answers OK and mutates the batch (remaining 10 → 11, discarded
quantity 0 → −1, discarded cost 0 → −2), contradicting the claim that a
negative amount fails with `InvalidAmount` leaving the batch unchanged. -/
theorem C5_discard_error_counterexample :
    (discard_item stD 1 (some (-1))).1 = Resp.ok
    ∧ (discard_item stD 1 (some (-1))).1 ≠ Resp.invalidAmount
    ∧ findBatch 1 (discard_item stD 1 (some (-1))).2.batches
        = some { batchA with
            remaining_quantity := 11,
            discarded_quantity := -1,
            discarded_cost := -2 } := by
  refine ⟨?_, ?_, ?_⟩
  · norm_num [discard_item, stD, batchA, findBatch, List.find?]
  · have h : (discard_item stD 1 (some (-1))).1 = Resp.ok := by
      norm_num [discard_item, stD, batchA, findBatch, List.find?]
    rw [h]
    decide
  · norm_num [discard_item, stD, batchA, findBatch, List.find?]

/-- **C5 (amended)** — discard fails with `InvalidAmount` and leaves the
state unchanged exactly when the (defaulted) amount exceeds the batch's
remaining quantity; in every other case — negative amounts included — it
answers OK. -/
theorem C5_discard_error_amended (st : St) (pid : Nat) (amt : Option ℚ) {p : Batch}
    (hp : findBatch pid st.batches = some p) :
    (discard_item st pid amt = (Resp.invalidAmount, st)
      ↔ p.remaining_quantity < amt.getD p.remaining_quantity)
    ∧ (¬ p.remaining_quantity < amt.getD p.remaining_quantity →
        (discard_item st pid amt).1 = Resp.ok) := by
  unfold discard_item
  rw [hp]
  dsimp only
  by_cases hlt : p.remaining_quantity < amt.getD p.remaining_quantity
  · rw [if_pos hlt]
    exact ⟨⟨fun _ => hlt, fun _ => rfl⟩, fun hc => absurd hlt hc⟩
  · rw [if_neg hlt]
    refine ⟨⟨?_, fun hcon => absurd hcon hlt⟩, fun _ => rfl⟩
    intro heq
    exfalso
    have hfst : Resp.ok = Resp.invalidAmount := congrArg Prod.fst heq
    exact absurd hfst (by decide)

/-- Witness for the amended C5: discarding 20 from a batch with 10
remaining is rejected, and discarding 4 is accepted. -/
theorem C5_discard_error_amended_witness :
    ((discard_item stD 1 (some 20) = (Resp.invalidAmount, stD)
        ↔ batchA.remaining_quantity < (some (20 : ℚ)).getD batchA.remaining_quantity)
      ∧ (¬ batchA.remaining_quantity < (some (20 : ℚ)).getD batchA.remaining_quantity →
          (discard_item stD 1 (some 20)).1 = Resp.ok))
    ∧ ((discard_item stD 1 (some 4)).1 = Resp.ok) := by
  refine ⟨C5_discard_error_amended stD 1 (some 20) rfl, ?_⟩
  exact (C5_discard_error_amended stD 1 (some 4) rfl).2 (by norm_num [batchA])

/-- **C2** — FIFO allocation.  General part: the allocation considers
exactly the positive-remaining batches of the ingredient, in ascending
(purchase date, expiry date) order; the returned cost is the sum over the
considered batches of `take × unit_cost` with
`take = min(remaining, max 0 (still needed))`; each considered batch's
remaining quantity is decremented by its take; batches outside the query
are unchanged.  Concrete part: the worked example (A: 10 @ 2 day 1,
B: 10 @ 3 day 2, request 15) costs 35 and leaves A at 0 and B at 5. -/
theorem C2_fifo_allocation :
    (∀ (ings : List Nat) (batches : List Batch) (iid : Nat) (need : ℚ),
      (ids batches).Nodup → iid ∈ ings →
      List.Sorted fifoLe (fifoOrdered batches iid)
      ∧ (fifoOrdered batches iid).Perm (batches.filter (fifoPred iid))
      ∧ (calculate_fifo_cost ings batches iid need).1
          = ∑ k : Fin (fifoOrdered batches iid).length,
              takeClosed need (fifoOrdered batches iid) k
                * ((fifoOrdered batches iid).get k).cost_per_unit
      ∧ (∀ k : Fin (fifoOrdered batches iid).length,
          findBatch ((fifoOrdered batches iid).get k).id
              (calculate_fifo_cost ings batches iid need).2
            = some { (fifoOrdered batches iid).get k with
                remaining_quantity :=
                  ((fifoOrdered batches iid).get k).remaining_quantity
                    - takeClosed need (fifoOrdered batches iid) k })
      ∧ (∀ b ∈ batches, fifoPred iid b = false →
          findBatch b.id (calculate_fifo_cost ings batches iid need).2 = some b))
    ∧ (calculate_fifo_cost [1] [batchA, batchB] 1 15).1 = 35
    ∧ findBatch 1 (calculate_fifo_cost [1] [batchA, batchB] 1 15).2
        = some { batchA with remaining_quantity := 0 }
    ∧ findBatch 2 (calculate_fifo_cost [1] [batchA, batchB] 1 15).2
        = some { batchB with remaining_quantity := 5 } := by
  refine ⟨?_, ?_, ?_, ?_⟩
  · intro ings batches iid need hnd hin
    exact ⟨fifoOrdered_sorted batches iid, fifoOrdered_perm batches iid,
      calculate_fifo_cost_value hin, fun k => calculate_fifo_cost_get hnd hin k,
      fun b hb h => calculate_fifo_cost_frame hnd hb h⟩
  · norm_num [calculate_fifo_cost, fifoOrdered, fifoWalk, batchA, batchB,
      List.insertionSort, List.orderedInsert, fifoLe, natTripleLe, batchKey, expTag,
      expVal, fifoPred, List.filter]
  · have e1 : ((1 : Nat) == 2) = false := by decide
    have e2 : ((2 : Nat) == 1) = false := by decide
    norm_num [calculate_fifo_cost, fifoOrdered, fifoWalk, batchA, batchB,
      List.insertionSort, List.orderedInsert, fifoLe, natTripleLe, batchKey, expTag,
      expVal, fifoPred, List.filter, findBatch, applyTakes, takeAmt, List.find?, e1, e2]
  · have e1 : ((1 : Nat) == 2) = false := by decide
    have e2 : ((2 : Nat) == 1) = false := by decide
    norm_num [calculate_fifo_cost, fifoOrdered, fifoWalk, batchA, batchB,
      List.insertionSort, List.orderedInsert, fifoLe, natTripleLe, batchKey, expTag,
      expVal, fifoPred, List.filter, findBatch, applyTakes, takeAmt, List.find?, e1, e2]

/-- Witness for C2's general part at the worked example. -/
theorem C2_fifo_allocation_witness :
    (calculate_fifo_cost [1] [batchA, batchB] 1 15).1
      = ∑ k : Fin (fifoOrdered [batchA, batchB] 1).length,
          takeClosed 15 (fifoOrdered [batchA, batchB] 1) k
            * ((fifoOrdered [batchA, batchB] 1).get k).cost_per_unit :=
  (C2_fifo_allocation.1 [1] [batchA, batchB] 1 15 (by decide) (by decide)).2.2.1

/-- **C6** — allocation shortfall is silent: when the ingredient's total
remaining stock is below the requested quantity, allocation does not
fail; it returns the value `Σ remaining × unit_cost` of the available
stock only and zeroes every batch of the ingredient. -/
theorem C6_shortfall_silent (ings : List Nat) (batches : List Batch) (iid : Nat)
    (need : ℚ) (hnd : (ids batches).Nodup) (hin : iid ∈ ings)
    (hpos : ∀ b ∈ batches, b.ingredient_id = iid → 0 ≤ b.remaining_quantity)
    (hS : ingSum (fun b => b.remaining_quantity) iid batches < need) :
    (calculate_fifo_cost ings batches iid need).1
        = ingSum (fun b => b.remaining_quantity * b.cost_per_unit) iid batches
    ∧ ∀ x ∈ (calculate_fifo_cost ings batches iid need).2,
        x.ingredient_id = iid → x.remaining_quantity = 0 := by
  have hgz : ∀ b ∈ batches, b.ingredient_id = iid → ¬(0 < b.remaining_quantity) →
      b.remaining_quantity = 0 := by
    intro b hb hbi hbr
    exact le_antisymm (not_lt.1 hbr) (hpos b hb hbi)
  have hfilts : ingSum (fun b => b.remaining_quantity) iid batches
      = ((batches.filter (fifoPred iid)).map (fun b => b.remaining_quantity)).sum :=
    ingSum_eq_predSum (fun b => b.remaining_quantity) iid batches hgz
  have hperm : (ids (fifoOrdered batches iid)).Nodup := fifoOrdered_nodup iid hnd
  have hordsum : ((fifoOrdered batches iid).map (fun b => b.remaining_quantity)).sum
      = ((batches.filter (fifoPred iid)).map (fun b => b.remaining_quantity)).sum :=
    List.Perm.sum_eq (List.Perm.map _ (fifoOrdered_perm batches iid))
  have hlt : ((fifoOrdered batches iid).map (fun b => b.remaining_quantity)).sum < need := by
    rw [hordsum, ← hfilts]
    exact hS
  have hdrain : ∀ k : Fin (fifoOrdered batches iid).length,
      takeClosed need (fifoOrdered batches iid) k
        = ((fifoOrdered batches iid).get k).remaining_quantity :=
    takeClosed_of_sum_lt fifoOrdered_pos hlt
  constructor
  · rw [calculate_fifo_cost_value hin]
    rw [Finset.sum_congr rfl (fun k _ => by rw [hdrain k])]
    rw [sum_fin_get (fifoOrdered batches iid)
      (fun b => b.remaining_quantity * b.cost_per_unit)]
    rw [List.Perm.sum_eq (List.Perm.map _ (fifoOrdered_perm batches iid))]
    symm
    refine ingSum_eq_predSum _ iid batches ?_
    intro b hb hbi hbr
    rw [hgz b hb hbi hbr, zero_mul]
  · intro x hx hxi
    unfold calculate_fifo_cost at hx
    rw [if_pos hin] at hx
    dsimp only at hx
    unfold applyTakes at hx
    rcases List.mem_map.1 hx with ⟨b, hb, rfl⟩
    dsimp only at hxi ⊢
    by_cases hr : 0 < b.remaining_quantity
    · have hbo : b ∈ fifoOrdered batches iid := mem_fifoOrdered hb hxi hr
      rcases List.mem_iff_get.1 hbo with ⟨k, hk⟩
      have htk := fifoWalk_takeAmt (fifoOrdered batches iid) hperm
        (fun y hy => le_of_lt (fifoOrdered_pos y hy)) need k
      have hd := hdrain k
      rw [hk] at htk hd
      rw [htk, hd, sub_self]
    · have hPf : fifoPred iid b = false := by
        unfold fifoPred
        simp only [Bool.and_eq_false_iff, decide_eq_false_iff_not]
        exact Or.inr hr
      rw [takeAmt_walk_zero hnd hb hPf, sub_zero]
      exact hgz b hb hxi hr

/-- Witness for C6: one batch with 10 remaining at unit cost 2, request 15:
cost is the stock value 20 and the batch is emptied. -/
theorem C6_shortfall_silent_witness :
    (calculate_fifo_cost [1] [batchA] 1 15).1
        = ingSum (fun b => b.remaining_quantity * b.cost_per_unit) 1 [batchA]
    ∧ ∀ x ∈ (calculate_fifo_cost [1] [batchA] 1 15).2,
        x.ingredient_id = 1 → x.remaining_quantity = 0 :=
  C6_shortfall_silent [1] [batchA] 1 15 (by decide) (by decide)
    (by intro b hb _; fin_cases hb; norm_num [batchA])
    (by norm_num [ingSum, batchA, List.filter])

/-- **C1** — quantity conservation: after every sequence of purchase,
allocate and discard operations, for every ingredient, the remaining
stock plus the total quantity taken by allocations plus the discarded
quantity equals the total purchased quantity. -/
theorem C1_quantity_conservation (iid : Nat) (ops : List Op)
    (hcore : ∀ op ∈ ops, coreOp op) :
    ingSum (fun b => b.remaining_quantity) iid (run ops).batches
      + allocatedTotal (run ops) iid
      + ingSum (fun b => b.discarded_quantity) iid (run ops).batches
    = ingSum (fun b => b.quantity) iid (run ops).batches :=
  consInv_run ops hcore iid

/-- Concrete operation sequence for the conservation witness: purchase 10
units, allocate 4, discard 3 of the remainder. -/
def opsC1 : List Op :=
  [Op.purchase 1 10 2 1 none none, Op.allocate 1 4 2, Op.discard 0 (some 3)]

/-- Witness for C1 on a concrete trace. -/
theorem C1_quantity_conservation_witness :
    ingSum (fun b => b.remaining_quantity) 1 (run opsC1).batches
      + allocatedTotal (run opsC1) 1
      + ingSum (fun b => b.discarded_quantity) 1 (run opsC1).batches
    = ingSum (fun b => b.quantity) 1 (run opsC1).batches :=
  C1_quantity_conservation 1 opsC1 (by
    intro op hop
    simp only [opsC1, List.mem_cons, List.not_mem_nil, or_false] at hop
    rcases hop with rfl | rfl | rfl <;> trivial)

/-- Operation sequence showing the batch upper bound can be violated:
purchase 10 units, allocate 15 (shortfall), then reverse the usage — the
fallback restores all 15 units into the single batch of quantity 10. -/
def opsC4 : List Op :=
  [Op.purchase 1 10 2 1 none none, Op.allocate 1 15 3, Op.reverseUsage 0]

/-- **C4 counterexample** — after `opsC4` the only batch has
`remaining_quantity = 15 > 10 = quantity`: the claimed invariant
`remaining_quantity ≤ quantity` does not hold in every reachable state. -/
theorem C4_batch_bounds_counterexample :
    ¬ ∀ b ∈ (run opsC4).batches, b.remaining_quantity ≤ b.quantity := by
  intro hall
  have e1 : ((1 : Nat) == 1) = true := by decide
  have hrun : (run opsC4).batches
      = [⟨0, 1, 1, none, 10, 15, 2, none, "active", 0, 0⟩] := by
    norm_num [run, opsC4, applyOp, st0, recordPurchaseBatch, cookAllocate,
      api_delete_usage, calculate_fifo_cost, fifoOrdered, fifoWalk, fifoTakeTotal,
      restoreWalk, applyTakes, applyGives, takeAmt, findBatch, findUsage, List.find?,
      List.filter, List.insertionSort, List.orderedInsert, fifoLe, recentLe,
      natTripleLe, batchKey, expTag, expVal, fifoPred, restorePred, ingPred, e1]
  have hb := hall ⟨0, 1, 1, none, 10, 15, 2, none, "active", 0, 0⟩
    (by rw [hrun]; exact List.mem_singleton_self _)
  norm_num at hb

/-- **C4 (amended)** — in every state reachable by boundary operations
whose purchases record nonnegative quantities, every batch satisfies
`0 ≤ remaining_quantity`, and a batch's unit cost never changes after
creation (the upper bound `remaining_quantity ≤ quantity` is dropped: the
reversal fallback violates it, see the counterexample). -/
theorem C4_batch_bounds_amended (ops ops2 : List Op)
    (hq : ∀ op ∈ ops ++ ops2, purchaseNonneg op) :
    (∀ b ∈ (run ops).batches, 0 ≤ b.remaining_quantity)
    ∧ (∀ i b, findBatch i (run ops).batches = some b →
        ∃ b', findBatch i (run (ops ++ ops2)).batches = some b'
          ∧ b'.cost_per_unit = b.cost_per_unit) := by
  constructor
  · refine nonneg_run_aux ops st0 wf_st0 ?_ ?_
    · intro op hop
      exact hq op (List.mem_append_left _ hop)
    · intro b hb
      simp [st0] at hb
  · intro i b hb
    have hsplit : run (ops ++ ops2) = ops2.foldl applyOp (run ops) := by
      unfold run
      rw [List.foldl_append]
    rw [hsplit]
    exact cost_frame_fold ops2 (run ops) hb

/-- Witness for the amended C4: the `opsC1` trace keeps remaining
quantities nonnegative, and a further discard preserves the batch's unit
cost. -/
theorem C4_batch_bounds_amended_witness :
    (∀ b ∈ (run opsC1).batches, 0 ≤ b.remaining_quantity)
    ∧ (∀ i b, findBatch i (run opsC1).batches = some b →
        ∃ b', findBatch i (run (opsC1 ++ [Op.discard 0 (some 1)])).batches = some b'
          ∧ b'.cost_per_unit = b.cost_per_unit) :=
  C4_batch_bounds_amended opsC1 [Op.discard 0 (some 1)] (by
    intro op hop
    simp only [opsC1, List.mem_append, List.mem_cons, List.not_mem_nil, or_false] at hop
    rcases hop with (rfl | rfl | rfl) | rfl
    · norm_num [purchaseNonneg]
    · trivial
    · trivial
    · trivial)

theorem findEvent_eq_some {i : Nat} {l : List EventR} {e : EventR}
    (h : findEvent i l = some e) : e ∈ l ∧ e.id = i := by
  refine ⟨List.mem_of_find?_eq_some h, ?_⟩
  have := List.find?_some h
  simpa using this

theorem findEvent_map_pres {f : EventR → EventR} (hf : ∀ e, (f e).id = e.id)
    (i : Nat) : ∀ (l : List EventR), findEvent i (l.map f) = (findEvent i l).map f := by
  intro l
  induction l with
  | nil => rfl
  | cons a l ih =>
    by_cases h : a.id = i
    · have h1 : ((f a).id == i) = true := by simp [hf a, h]
      have h2 : (a.id == i) = true := by simp [h]
      simp [findEvent, List.find?_cons, h1, h2] at *
    · have h1 : ((f a).id == i) = false := by simp [hf a, h]
      have h2 : (a.id == i) = false := by simp [h]
      unfold findEvent at *
      rw [List.map_cons, List.find?_cons, List.find?_cons, h1, h2]
      exact ih

/-- **C8** — idempotent full discard: setting a non-discarded batch's
status to `'discarded'` empties it, adds its remaining value to the
batch's `discarded_cost` and the owning event's `total_waste`, and sets
the status; doing it again — and, in general, applying it to an already
discarded batch — changes nothing. -/
theorem C8_idempotent_full_discard (st : St) (pid : Nat) {p : Batch}
    (hp : findBatch pid st.batches = some p) :
    (p.status ≠ "discarded" →
      (update_purchase_status st pid "discarded").1 = Resp.ok
      ∧ findBatch pid (update_purchase_status st pid "discarded").2.batches
          = some { p with
              remaining_quantity := 0,
              discarded_quantity := p.discarded_quantity + p.remaining_quantity,
              discarded_cost := p.discarded_cost + p.remaining_quantity * p.cost_per_unit,
              status := "discarded" }
      ∧ ∀ eid, p.shopping_event_id = some eid → ∀ ev,
          findEvent eid st.events = some ev →
          findEvent eid (update_purchase_status st pid "discarded").2.events
            = some { ev with
                total_waste := ev.total_waste + p.remaining_quantity * p.cost_per_unit })
    ∧ (p.status = "discarded" →
        update_purchase_status st pid "discarded" = (Resp.ok, st))
    ∧ update_purchase_status (update_purchase_status st pid "discarded").2 pid "discarded"
        = (Resp.ok, (update_purchase_status st pid "discarded").2) := by
  have hpid : p.id = pid := (findBatch_eq_some hp).2
  have hgen : ∀ (s2 : St) (p2 : Batch), findBatch pid s2.batches = some p2 →
      p2.status = "discarded" →
      update_purchase_status s2 pid "discarded" = (Resp.ok, s2) := by
    intro s2 p2 h2 hs2
    unfold update_purchase_status
    rw [h2]
    dsimp only
    rw [if_neg (fun hc => hc.2 hs2)]
  by_cases hs : p.status = "discarded"
  · have heq : update_purchase_status st pid "discarded" = (Resp.ok, st) := hgen st p hp hs
    refine ⟨fun hns => absurd hs hns, fun _ => heq, ?_⟩
    rw [heq]
    exact hgen st p hp hs
  · have hcond : ("discarded" : String) = "discarded" ∧ p.status ≠ "discarded" := ⟨rfl, hs⟩
    have hfid : ∀ x : Batch, ((fun b : Batch => if b.id == pid then
        { p with
          discarded_quantity := p.discarded_quantity + p.remaining_quantity,
          remaining_quantity := 0,
          discarded_cost := p.discarded_cost + p.remaining_quantity * p.cost_per_unit,
          status := "discarded" } else b) x).id = x.id := by
      intro x
      show (if (x.id == pid) = true then _ else x).id = x.id
      by_cases hx : (x.id == pid) = true
      · rw [if_pos hx]
        show p.id = x.id
        rw [hpid]
        exact (beq_iff_eq.1 hx).symm
      · rw [if_neg hx]
    have hfb1 : findBatch pid (update_purchase_status st pid "discarded").2.batches
        = some { p with
            remaining_quantity := 0,
            discarded_quantity := p.discarded_quantity + p.remaining_quantity,
            discarded_cost := p.discarded_cost + p.remaining_quantity * p.cost_per_unit,
            status := "discarded" } := by
      unfold update_purchase_status
      rw [hp]
      dsimp only
      rw [if_pos hcond]
      dsimp only
      rw [findBatch_map_pres hfid pid st.batches, hp, Option.map_some']
      rw [if_pos (by rw [beq_iff_eq]; exact hpid)]
    refine ⟨fun _ => ⟨?_, hfb1, ?_⟩, fun hds => absurd hds hs, ?_⟩
    · unfold update_purchase_status
      rw [hp]
      dsimp only
      rw [if_pos hcond]
    · intro eid heid ev hev
      unfold update_purchase_status
      rw [hp]
      dsimp only
      rw [if_pos hcond]
      dsimp only
      rw [heid]
      dsimp only
      have hfide : ∀ x : EventR, ((fun e : EventR => if e.id == eid then
          { e with total_waste := e.total_waste + p.remaining_quantity * p.cost_per_unit }
          else e) x).id = x.id := by
        intro x
        show (if (x.id == eid) = true then _ else x).id = x.id
        by_cases hx : (x.id == eid) = true
        · rw [if_pos hx]
        · rw [if_neg hx]
      rw [findEvent_map_pres hfide eid st.events, hev, Option.map_some']
      rw [if_pos (by rw [beq_iff_eq]; exact (findEvent_eq_some hev).2)]
    · exact hgen _ _ hfb1 rfl

/-- Batch and event for the C8 witness: a batch of 10 units at unit cost
2 belonging to shopping event 1. -/
def batchE : Batch := ⟨1, 1, 1, none, 10, 10, 2, some 1, "active", 0, 0⟩

/-- Shopping event for the C8 witness. -/
def eventE : EventR := ⟨1, 1, 20, 0⟩

/-- State for the C8 witness. -/
def stE : St := ⟨[1], [batchE], [], [eventE], 2, 0, []⟩

/-- Witness for C8 at a concrete batch with an owning event. -/
theorem C8_idempotent_full_discard_witness :
    (batchE.status ≠ "discarded" →
      (update_purchase_status stE 1 "discarded").1 = Resp.ok
      ∧ findBatch 1 (update_purchase_status stE 1 "discarded").2.batches
          = some { batchE with
              remaining_quantity := 0,
              discarded_quantity := batchE.discarded_quantity + batchE.remaining_quantity,
              discarded_cost := batchE.discarded_cost
                + batchE.remaining_quantity * batchE.cost_per_unit,
              status := "discarded" }
      ∧ ∀ eid, batchE.shopping_event_id = some eid → ∀ ev,
          findEvent eid stE.events = some ev →
          findEvent eid (update_purchase_status stE 1 "discarded").2.events
            = some { ev with
                total_waste := ev.total_waste
                  + batchE.remaining_quantity * batchE.cost_per_unit })
    ∧ (batchE.status = "discarded" →
        update_purchase_status stE 1 "discarded" = (Resp.ok, stE))
    ∧ update_purchase_status (update_purchase_status stE 1 "discarded").2 1 "discarded"
        = (Resp.ok, (update_purchase_status stE 1 "discarded").2) :=
  C8_idempotent_full_discard stE 1 rfl

/-- **C3** — usage reversal: reversing a recorded usage of quantity `Q ≥ 0`
succeeds, restores exactly `Q` units in total to the ingredient's batches
(filling the not-pristine batches in FIFO order, any remainder going to
the most recently purchased batch), deletes the usage row, and running
the same reversal again fails with `NotFound`. -/
theorem C3_usage_reversal (st : St) (uid : Nat) {u : UsageR}
    (hu : findUsage uid st.usages = some u)
    (hnd : (ids st.batches).Nodup)
    (hq : 0 ≤ u.actual_usage)
    (hex : ∃ b ∈ st.batches, b.ingredient_id = u.ingredient_id) :
    (api_delete_usage st uid).1 = Resp.ok
    ∧ ingSum (fun b => b.remaining_quantity) u.ingredient_id
          (api_delete_usage st uid).2.batches
        = ingSum (fun b => b.remaining_quantity) u.ingredient_id st.batches
          + u.actual_usage
    ∧ findUsage uid (api_delete_usage st uid).2.usages = none
    ∧ api_delete_usage (api_delete_usage st uid).2 uid
        = (Resp.notFound, (api_delete_usage st uid).2) :=
  api_delete_usage_props st uid hu hnd hq hex

/-- Batch for the C3 witness: 4 of 10 units remaining. -/
def batchR : Batch := ⟨1, 1, 1, none, 10, 4, 2, none, "active", 0, 0⟩

/-- Usage of 6 units for the C3 witness. -/
def usageR : UsageR := ⟨0, 1, 5, 6, 12⟩

/-- State for the C3 witness. -/
def stR : St := ⟨[1], [batchR], [usageR], [], 2, 1, []⟩

/-- Witness for C3 at a concrete partially depleted batch. -/
theorem C3_usage_reversal_witness :
    (api_delete_usage stR 0).1 = Resp.ok
    ∧ ingSum (fun b => b.remaining_quantity) usageR.ingredient_id
          (api_delete_usage stR 0).2.batches
        = ingSum (fun b => b.remaining_quantity) usageR.ingredient_id stR.batches
          + usageR.actual_usage
    ∧ findUsage 0 (api_delete_usage stR 0).2.usages = none
    ∧ api_delete_usage (api_delete_usage stR 0).2 0
        = (Resp.notFound, (api_delete_usage stR 0).2) :=
  C3_usage_reversal stR 0 rfl (by decide) (by norm_num [usageR])
    ⟨batchR, by simp [stR], rfl⟩

/-- Event with negative accumulated waste (reachable via a negative
discard amount), used to refute the waste half of the aggregate claim. -/
def eventNeg : EventR := ⟨1, 5, 0, -1⟩

/-- **C9 counterexample** — for the month `[5, 6)` containing only
`eventNeg`, the dashboard's monthly waste total is `-1` while the sum of
the per-day `monthly_stats` waste figures is `0` (events with
`total_waste ≤ 0` are skipped when building the per-day table), so the
two disagree. -/
theorem C9_aggregate_counterexample :
    monthlyWasteTotal [eventNeg] 5 6 = -1
    ∧ (∑ d in Finset.Ico 5 6, dailyWasteStat [eventNeg] d) = 0
    ∧ monthlyWasteTotal [eventNeg] 5 6
        ≠ ∑ d in Finset.Ico 5 6, dailyWasteStat [eventNeg] d := by
  have h1 : monthlyWasteTotal [eventNeg] 5 6 = -1 := by
    norm_num [monthlyWasteTotal, eventNeg, List.filter]
  have hico : Finset.Ico 5 6 = {5} := rfl
  have h2 : (∑ d in Finset.Ico 5 6, dailyWasteStat [eventNeg] d) = 0 := by
    rw [hico, Finset.sum_singleton]
    norm_num [dailyWasteStat, eventNeg, List.filter]
  refine ⟨h1, h2, ?_⟩
  rw [h1, h2]
  norm_num

/-- **C9 (amended)** — the monthly usage aggregate always equals the sum
of the daily usage aggregates; the monthly waste aggregate equals the sum
of the daily waste aggregates provided no event has negative
`total_waste` (the per-day figures omit events with `total_waste ≤ 0`,
which only matters for negative values). -/
theorem C9_aggregate_amended (usages : List UsageR) (events : List EventR)
    (lo hi : Nat) (hw : ∀ e ∈ events, 0 ≤ e.total_waste) :
    monthlyUsageTotal usages lo hi = ∑ d in Finset.Ico lo hi, dailyUsageStat usages d
    ∧ monthlyWasteTotal events lo hi = ∑ d in Finset.Ico lo hi, dailyWasteStat events d :=
  ⟨monthlyUsage_eq_sum_daily usages lo hi, monthlyWaste_eq_sum_daily events lo hi hw⟩

/-- Witness for the amended C9 at concrete tables. -/
theorem C9_aggregate_amended_witness :
    monthlyUsageTotal [⟨0, 1, 5, 2, 7⟩] 0 10
        = ∑ d in Finset.Ico 0 10, dailyUsageStat [⟨0, 1, 5, 2, 7⟩] d
    ∧ monthlyWasteTotal [⟨1, 5, 0, 3⟩] 0 10
        = ∑ d in Finset.Ico 0 10, dailyWasteStat [⟨1, 5, 0, 3⟩] d :=
  C9_aggregate_amended [⟨0, 1, 5, 2, 7⟩] [⟨1, 5, 0, 3⟩] 0 10
    (by intro e he; fin_cases he; norm_num)

end SaveEat
